import Mathlib

/-!
Shallow embedding of the filter-graph assembly engine of
`VideoTransformFFmpeg` (file `transform.py`, class `Transform` and the
module-level `choice` function), together with proofs of the spec claims.

Python strings are modelled by Lean `String`; Python floats by `ℚ` (all the
arithmetic the engine performs on them — comparison with literals, `%`,
`+`, `*` — is exact on the values that matter); Python ints by `Int`;
`None` by `Option`.  `str(...)` / `'{}'.format(...)` rendering of numbers
is modelled by the executable functions `natRepr` / `intRepr` / `floatRepr`
below, which agree with CPython's rendering on every terminating decimal.
Randomness (`random.sample`, `random.choice`, `random.randint`) is modelled
by explicit integer oracles supplied as arguments.
-/

namespace VT

/-- Decimal digit character for a value below ten. -/
def digitChar (d : Nat) : Char := Char.ofNat (48 + d)

/-- Digit list of a positive natural number, most significant first; the
first argument is fuel (any fuel at least the number itself suffices). -/
def natDigits : Nat → Nat → List Char
  | 0, _ => []
  | fuel + 1, n =>
    if n = 0 then [] else natDigits fuel (n / 10) ++ [digitChar (n % 10)]

/-- Model of Python `str` on a non-negative integer. -/
def natRepr (n : Nat) : String :=
  if n = 0 then "0" else String.mk (natDigits n n)

/-- Model of Python `str` on an integer. -/
def intRepr (i : Int) : String :=
  if i < 0 then "-" ++ natRepr i.natAbs else natRepr i.natAbs

/-- Fractional-part digits of a rational in `[0,1)`: the digit stream of
`q` written in decimal, stopping when the remainder is zero or when the
fuel runs out (17 digits of fuel below, mirroring float precision). -/
def fracDigits : Nat → ℚ → List Char
  | 0, _ => []
  | fuel + 1, q =>
    if q = 0 then []
    else digitChar ⌊q * 10⌋.toNat :: fracDigits fuel (Int.fract (q * 10))

/-- Model of Python `str` on a float (exact on terminating decimals:
`str(1.0) = "1.0"`, `str(0.5) = "0.5"`, `str(-2.25) = "-2.25"`). -/
def floatRepr (q : ℚ) : String :=
  let a : ℚ := |q|
  let frac := fracDigits 17 (Int.fract a)
  (if q < 0 then "-" else "") ++ natRepr ⌊a⌋.toNat ++ "." ++
    (if frac.isEmpty then "0" else String.mk frac)

/-- Python `%` on floats with a positive modulus: `a - b * ⌊a / b⌋`. -/
def pyMod (a b : ℚ) : ℚ := a - b * ⌊a / b⌋

/-- An ffmpeg `Expression` argument: Python `int`, `float` or `str`. -/
inductive Expr where
  | int : Int → Expr
  | float : ℚ → Expr
  | str : String → Expr
deriving DecidableEq, Repr

/-- String interpolation of an `Expression` argument, as `'{}'.format(e)`
renders it. -/
def Expr.format : Expr → String
  | .int i => intRepr i
  | .float q => floatRepr q
  | .str s => s

/-- Ghost record of a node name generated by the builder: either an input
registration (`__input`, yielding `str(index)`) or a synthesized temporary
(`__gen_temp`, yielding `"temp" + str(index)`).  Used only to state
uniqueness claims; it does not influence any computed text. -/
inductive GenName where
  | input : Nat → GenName
  | temp : Nat → GenName
deriving DecidableEq, Repr

/-- Rendering of a generated node name as it appears in the graph text. -/
def GenName.render : GenName → String
  | .input i => natRepr i
  | .temp i => "temp" ++ natRepr i

/-- The state owned by the root `Transform` and shared (via the `parent`
back-reference) by every child branch: the input registry `self.input`,
the temporary-name counter `self.temp_idx`, and the ghost list `gen` of
all names generated so far (instrumentation, not part of the source). -/
structure Shared where
  input : List String
  temp_idx : Nat
  gen : List GenName
deriving DecidableEq, Repr

/-- The per-branch state of a `Transform` instance: its accumulated filter
fragment `self.filter` and its current label `self.name`. -/
structure BranchS where
  filter : String
  name : Option String
deriving DecidableEq, Repr

/-- A root `Transform`: shared state, the optional trim window
`self.now_duration`, and the root's own branch state. -/
structure Transform where
  shared : Shared
  now_duration : Option (ℚ × ℚ)
  branch : BranchS
deriving DecidableEq, Repr

/-- Python truthiness of the `Optional[str]` field `self.name`. -/
def strTruthy : Option String → Bool
  | none => false
  | some s => s ≠ ""

/-- `Transform.__sep`: `sep if self.filter != '' else ''`. -/
def pySep (filter sep : String) : String :=
  if filter ≠ "" then sep else ""

/-- `Transform.__input`: append to the parent's registry and return
`str(len(parent.input) - 1)`. -/
def inputReg (sh : Shared) (path : String) : Shared × String :=
  let inp := sh.input ++ [path]
  ({ input := inp, temp_idx := sh.temp_idx,
     gen := sh.gen ++ [.input (inp.length - 1)] },
   natRepr (inp.length - 1))

/-- `Transform.__gen_temp`: increment the parent's counter and return
`"temp{}".format(parent.temp_idx)`. -/
def genTemp (sh : Shared) : Shared × String :=
  let t := sh.temp_idx + 1
  ({ input := sh.input, temp_idx := t, gen := sh.gen ++ [.temp t] },
   "temp" ++ natRepr t)

/-- `Transform.__end`: if `self.name` is truthy return it and the filter
unchanged; otherwise synthesize a temporary, append it as a trailing
bracketed label, and return it.  (`self.name` is not updated.) -/
def endB (sh : Shared) (b : BranchS) : Shared × BranchS × String :=
  if strTruthy b.name then (sh, b, b.name.getD "")
  else
    let (sh1, n) := genTemp sh
    (sh1, { filter := b.filter ++ "[" ++ n ++ "]", name := b.name }, n)

/-- `Transform.__chain`: anchor the fragment to `[self.name]` if the label
is truthy (clearing it), else append after a comma separator (omitted on
empty text). -/
def chainF (b : BranchS) (f : String) : BranchS :=
  if strTruthy b.name then
    { filter := b.filter ++ "[" ++ b.name.getD "" ++ "]" ++ f, name := none }
  else
    { filter := b.filter ++ pySep b.filter "," ++ f, name := b.name }

/-- `Transform.__merge`: close both branches, then append
`sep(';') + other_filter + ';' + '[name][name2]' + merger` and clear the
label. -/
def mergeB (sh : Shared) (self other : BranchS) (merger : String) :
    Shared × BranchS :=
  let (sh1, self1, n1) := endB sh self
  let (sh2, other2, n2) := endB sh1 other
  (sh2,
   { filter := self1.filter ++ pySep self1.filter ";" ++ other2.filter ++
       ";" ++ "[" ++ n1 ++ "][" ++ n2 ++ "]" ++ merger,
     name := none })

/-- `Transform.__init__` for a root: empty registry and counter, then
`self.name = self.__input(input)`, empty filter, no trim window. -/
def mkTransform (input : String) : Transform :=
  let (sh, n) := inputReg { input := [], temp_idx := 0, gen := [] } input
  { shared := sh, now_duration := none,
    branch := { filter := "", name := some n } }

/-- Lift a branch-only mutation to the root transform. -/
def onBranch (f : BranchS → BranchS) (t : Transform) : Transform :=
  { t with branch := f t.branch }

/-- `Transform.scale`: no-op when `ratio == 1.0`, else chain
`scale=round(iw*r/2)*2:round(ih*r/2)*2`. -/
def scaleB (ratio : ℚ) (b : BranchS) : BranchS :=
  if ratio ≠ 1 then
    chainF b ("scale=round(iw*" ++ floatRepr ratio ++
      "/2)*2:round(ih*" ++ floatRepr ratio ++ "/2)*2")
  else b

/-- `Transform.mirror`: chain `hflip`. -/
def mirrorB (b : BranchS) : BranchS := chainF b "hflip"

/-- `Transform.rotate`: normalize the angle mod 360, special-case the three
quarter turns, chain a `rotate=...` expression otherwise, no-op at 0. -/
def rotateB (angle : ℚ) (b : BranchS) : BranchS :=
  let angle := pyMod angle 360
  if angle = 90 then chainF b "transpose=1"
  else if angle = 180 then chainF b "transpose=1,transpose=1"
  else if angle = 270 then chainF b "transpose=2"
  else if angle ≠ 0 then
    let radian := floatRepr angle ++ "*PI/180"
    chainF b ("rotate=" ++ radian ++ ":iw*abs(cos(" ++ radian ++
      "))+ih*abs(sin(" ++ radian ++ ")):iw*abs(sin(" ++ radian ++
      "))+ih*abs(cos(" ++ radian ++ ")):fillcolor=none")
  else b

/-- `Transform.brightness`: chain `eq=brightness=b` (always applied). -/
def brightnessB (br : ℚ) (b : BranchS) : BranchS :=
  chainF b ("eq=brightness=" ++ floatRepr br)

/-- `Transform.crop`: chain `crop=w:h:x:y`. -/
def cropB (w h x y : Expr) (b : BranchS) : BranchS :=
  chainF b ("crop=" ++ w.format ++ ":" ++ h.format ++ ":" ++
    x.format ++ ":" ++ y.format)

/-- `Transform.alpha`: no-op when `alpha == 1.0`, else chain
`format=rgba,colorchannelmixer=aa=a`. -/
def alphaB (a : ℚ) (b : BranchS) : BranchS :=
  if a ≠ 1 then
    chainF b ("format=rgba,colorchannelmixer=aa=" ++ floatRepr a)
  else b

/-- `Transform.padding`: chain
`pad=iw+{left}+{right}:ih+{top}+{bottom}:{left}:{top}`. -/
def paddingB (top right bottom left : Expr) (b : BranchS) : BranchS :=
  chainF b ("pad=iw+" ++ left.format ++ "+" ++ right.format ++ ":ih+" ++
    top.format ++ "+" ++ bottom.format ++ ":" ++ left.format ++ ":" ++
    top.format)

/-- `Transform.watermark`: spawn a child branch on `image` (a fresh
`Transform(image, self)` sharing the root's registry and counter), apply
`scale`, then `rotate`, then `alpha` to it, and merge it into `self` with
`overlay=x:y`. -/
def watermarkOp (t : Transform) (image : String) (alpha : ℚ) (x y : Expr)
    (scale angle : ℚ) : Transform :=
  let (sh, childName) := inputReg t.shared image
  let child : BranchS := { filter := "", name := some childName }
  let child := alphaB alpha (rotateB angle (scaleB scale child))
  let (sh2, b2) := mergeB sh t.branch child
    ("overlay=" ++ x.format ++ ":" ++ y.format)
  { shared := sh2, now_duration := t.now_duration, branch := b2 }

/-- Error kinds raised by `Transform.duration`. -/
inductive DurError where
  | invalidWindow
  | probeUnavailable
deriving DecidableEq, Repr

/-- `Transform.duration` on the root branch, with the external `ffprobe`
collaborator modelled by `probe` (its reported duration in seconds, or
`none` when unavailable).  Returns the state paired with the exception
raised, if any; the asserts precede every mutation in the source, so on
failure the state is returned unchanged. -/
def durationRun (t : Transform) (start_ratio ratio : ℚ) (probe : Option ℚ) :
    Transform × Option DurError :=
  if ¬ (start_ratio + ratio ≤ 1) then (t, some .invalidWindow)
  else
    match t.now_duration, probe with
    | none, none => (t, some .probeUnavailable)
    | none, some d =>
      let start : ℚ := 0
      let length : ℚ := d - start
      let start := start + length * start_ratio
      ({ t with now_duration := some (start, start + length * ratio) }, none)
    | some (s, e), _ =>
      let length := e - s
      let start := s + length * start_ratio
      ({ t with now_duration := some (start, start + length * ratio) }, none)

/-- The root-level operations a caller can perform on one root branch
(`close` is the builder's `__end` primitive, exercised via merges). -/
inductive Op where
  | watermark (image : String) (alpha : ℚ) (x y : Expr) (scale angle : ℚ)
  | padding (top right bottom left : Expr)
  | duration (start_ratio ratio : ℚ)
  | scale (ratio : ℚ)
  | rotate (angle : ℚ)
  | brightness (b : ℚ)
  | mirror
  | crop (w h x y : Expr)
  | alpha (a : ℚ)
  | close

/-- One operation applied to the root; the boolean is `true` when the
operation raised (only `duration` can), in which case the returned state is
the state at the raise. -/
def applyOp (probe : Option ℚ) (t : Transform) : Op → Transform × Bool
  | .watermark img a x y sc an => (watermarkOp t img a x y sc an, false)
  | .padding tp r bt l => (onBranch (paddingB tp r bt l) t, false)
  | .duration a b =>
    match durationRun t a b probe with
    | (t1, none) => (t1, false)
    | (t1, some _) => (t1, true)
  | .scale r => (onBranch (scaleB r) t, false)
  | .rotate a => (onBranch (rotateB a) t, false)
  | .brightness b => (onBranch (brightnessB b) t, false)
  | .mirror => (onBranch mirrorB t, false)
  | .crop w h x y => (onBranch (cropB w h x y) t, false)
  | .alpha a => (onBranch (alphaB a) t, false)
  | .close =>
    let (sh, b, _) := endB t.shared t.branch
    ({ shared := sh, now_duration := t.now_duration, branch := b }, false)

/-- Run a straight-line sequence of operations on the root; a raised
exception aborts the rest of the sequence (Python semantics). -/
def runOps (probe : Option ℚ) : List Op → Transform → Transform
  | [], t => t
  | op :: ops, t =>
    match applyOp probe t op with
    | (t1, false) => runOps probe ops t1
    | (t1, true) => t1

/-! ### The Chooseable resolver (`choice`) -/

/-- A Python runtime value as the `choice` resolver can receive it: a
number, a string, a list of values, or a zero-argument callable. -/
inductive PyVal where
  | int : Int → PyVal
  | float : ℚ → PyVal
  | str : String → PyVal
  | list : List PyVal → PyVal
  | func : (Unit → PyVal) → PyVal

/-- `isinstance(arg, list)`. -/
def PyVal.isList : PyVal → Bool
  | .list _ => true
  | _ => false

/-- `isinstance(arg, str)`. -/
def PyVal.isStr : PyVal → Bool
  | .str _ => true
  | _ => false

/-- `callable(arg)`. -/
def PyVal.isCallable : PyVal → Bool
  | .func _ => true
  | _ => false

/-- The module-level `choice` function: `random.choice(arg)` when
`isinstance(arg, list) and not isinstance(arg, str)` (the second conjunct
is vacuous, since a `str` is never a `list` instance — the branch fires
exactly on `list` values), `arg()` when `callable(arg)`, else `arg`
itself.  `random.choice` on an empty list raises `IndexError`; the random
index is the oracle `g` reduced mod the list length. -/
def pyChoice (g : Nat) : PyVal → Except String PyVal
  | .list xs =>
    match xs[g % xs.length]? with
    | some v => .ok v
    | none => .error "IndexError"
  | .func f => .ok (f ())
  | v => .ok v

/-! ### The randomized composition engine (`mixed`) -/

/-- The closed enumeration of operation names in `Transform.methods`
(declaration order). -/
inductive Method where
  | watermark
  | padding
  | duration
  | scale
  | rotate
  | brightness
  | mirror
  | crop
deriving DecidableEq, Repr

/-- `Transform.methods`, in declaration order. -/
def defaultMethods : List Method :=
  [.watermark, .padding, .duration, .scale, .rotate, .brightness,
   .mirror, .crop]

/-- A typed `Chooseable[T]` (the tagged-union view of
`Union[T, Sequence[T], Callable[[], T]]`): a literal, a candidate list, or
a zero-argument generator. -/
inductive Chooseable (α : Type) where
  | lit : α → Chooseable α
  | ofList : List α → Chooseable α
  | gen : (Unit → α) → Chooseable α

/-- The `choice` resolver specialized at a `Chooseable[T]` value: identical
dispatch to `pyChoice` (list → `random.choice`, callable → call, literal →
itself). -/
def resolveChoose {α : Type} (g : Nat) : Chooseable α → Except String α
  | .lit a => .ok a
  | .ofList xs =>
    match xs[g % xs.length]? with
    | some v => .ok v
    | none => .error "IndexError"
  | .gen f => .ok (f ())

/-- `random.randint(a, b)` (both ends inclusive), driven by the oracle. -/
def pyRandint (a b g : Nat) : Nat := a + g % (b - a + 1)

/-- `random.sample(pool, k)` selection loop once `k ≤ len(pool)` is known:
repeatedly pick an element at an oracle-chosen index and recurse on the
pool with that index removed (sampling without replacement). -/
def sampleAux {α : Type} : Nat → List α → (Nat → Nat) → Nat → List α
  | 0, _, _, _ => []
  | _ + 1, [], _, _ => []
  | k + 1, x :: xs, g, step =>
    let i := g step % (x :: xs).length
    match (x :: xs)[i]? with
    | some y => y :: sampleAux k ((x :: xs).eraseIdx i) g (step + 1)
    | none => []

/-- `random.sample(pool, k)`: raises `ValueError` when `k` exceeds the
population size, else returns `k` distinct positions' elements in a random
order. -/
def sampleWR {α : Type} (pool : List α) (k : Nat) (g : Nat → Nat) :
    Except String (List α) :=
  if k > pool.length then .error "Sample larger than population"
  else .ok (sampleAux k pool g 0)

/-- Errors that can escape one iteration (or the setup) of
`Transform.mixed`. -/
inductive MixErr where
  | sampleTooLarge
  | indexError
  | missingArgument
  | invalidWindow
  | probeUnavailable
deriving DecidableEq, Repr

/-- Invocation `getattr(self, method)(**kwargs)` with empty `kwargs`
(no argument spec): every parameter takes its declared default.
`watermark` has no default for its required `image` parameter, so the call
itself raises `TypeError`; `duration` defaults to
`start_ratio=0.0, ratio=1.0` and may still need the probe. -/
def invokeDefault (probe : Option ℚ) (t : Transform) :
    Method → Except MixErr Transform
  | .watermark => .error .missingArgument
  | .padding => .ok (onBranch (paddingB (.int 0) (.int 0) (.int 0) (.int 0)) t)
  | .duration =>
    match durationRun t 0 1 probe with
    | (t1, none) => .ok t1
    | (_, some .invalidWindow) => .error .invalidWindow
    | (_, some .probeUnavailable) => .error .probeUnavailable
  | .scale => .ok (onBranch (scaleB 1) t)
  | .rotate => .ok (onBranch (rotateB 0) t)
  | .brightness => .ok (onBranch (brightnessB 0) t)
  | .mirror => .ok (onBranch mirrorB t)
  | .crop => .ok (onBranch (cropB (.str "iw") (.str "ih") (.int 0) (.int 0)) t)

/-- The `for method in random.sample(...)` loop body of `mixed`: invoke
each sampled method in order, recording the methods actually applied; a
raised exception aborts the loop (Python semantics). -/
def mixedLoop (probe : Option ℚ) :
    Transform → List Method → Option MixErr × Transform × List Method
  | t, [] => (none, t, [])
  | t, m :: ms =>
    match invokeDefault probe t m with
    | .error e => (some e, t, [])
    | .ok t1 =>
      let (r, t2, applied) := mixedLoop probe t1 ms
      (r, t2, m :: applied)

/-- `Transform.mixed(args={}, methods, k)` with no argument spec: resolve
`k` through the Chooseable resolver (defaulting to
`random.randint(1, len(methods))`), draw `random.sample(methods, k)`, and
invoke each sampled method with empty kwargs.  Returns the exception (if
any), the final state, and the list of methods applied before any
failure. -/
def mixedRun (t : Transform) (methods : List Method)
    (k : Option (Chooseable Nat)) (gk : Nat) (gs : Nat → Nat)
    (probe : Option ℚ) : Option MixErr × Transform × List Method :=
  let kres : Except String Nat :=
    match k with
    | none => .ok (pyRandint 1 methods.length gk)
    | some c => resolveChoose gk c
  match kres with
  | .error _ => (some .indexError, t, [])
  | .ok kv =>
    match sampleWR methods kv gs with
    | .error _ => (some .sampleTooLarge, t, [])
    | .ok sampled => mixedLoop probe t sampled

/-! ### Well-formedness predicates on the emitted graph text -/

/-- The text starts with a separator character (`,` or `;`). -/
def sepStart (s : String) : Bool :=
  match s.data with
  | [] => false
  | c :: _ => c == ',' || c == ';'

/-- Two adjacent `;` characters occur — an empty statement between two
statement separators. -/
def hasDoubleSemi : List Char → Bool
  | a :: b :: rest => (a == ';' && b == ';') || hasDoubleSemi (b :: rest)
  | _ => false

/-- The registry index recorded by a generated name, if it is an input. -/
def inputIdx : GenName → Option Nat
  | .input i => some i
  | _ => none

/-- The counter value recorded by a generated name, if it is a temp. -/
def tempIdx : GenName → Option Nat
  | .temp i => some i
  | _ => none

/-- Decimal value of a digit string (inverts `natDigits`). -/
def digitsVal (l : List Char) : Nat :=
  l.foldl (fun acc c => 10 * acc + (c.toNat - 48)) 0

/-- An expression argument whose rendering contains no statement
separator. -/
def Expr.semiFree (e : Expr) : Prop := ';' ∉ e.format.data

/-- The operations claim C2 ranges over: the eight chaining operations,
with separator-free expression arguments, and with a watermark child that
chains at least one filter (scale, rotation or alpha effective). -/
def C2Op : Op → Prop
  | .watermark _ a x y sc an =>
    x.semiFree ∧ y.semiFree ∧ (sc ≠ 1 ∨ pyMod an 360 ≠ 0 ∨ a ≠ 1)
  | .padding tp r bt l =>
    tp.semiFree ∧ r.semiFree ∧ bt.semiFree ∧ l.semiFree
  | .crop w h x y => w.semiFree ∧ h.semiFree ∧ x.semiFree ∧ y.semiFree
  | .scale _ => True
  | .rotate _ => True
  | .brightness _ => True
  | .mirror => True
  | .alpha _ => True
  | .duration _ _ => False
  | .close => False

/-- Invariant of a branch's text: no leading separator, no empty statement
between two `;`, no trailing `;`, and any pending label separator-free. -/
def GoodB (b : BranchS) : Prop :=
  sepStart b.filter = false ∧ hasDoubleSemi b.filter.data = false ∧
  b.filter.data.getLast? ≠ some ';' ∧
  ∀ s, b.name = some s → ';' ∉ s.data

/-- A fragment fit for `__chain`: nonempty, `;`-free, not starting with a
comma. -/
def FragOK (f : String) : Prop :=
  f.data ≠ [] ∧ ';' ∉ f.data ∧ f.data.head? ≠ some ','

/-- A watermark child branch that has chained at least one filter: nonempty
`;`-free filter anchored at a bracket, label cleared. -/
def ChildDone (b : BranchS) : Prop :=
  b.filter.data ≠ [] ∧ b.filter.data.head? = some '[' ∧ b.name = none ∧
    ';' ∉ b.filter.data

/-- The two reachable shapes of a watermark child branch: untouched (empty
filter, still labeled with its input name), or chained at least once. -/
def ChildSt (cn : String) (b : BranchS) : Prop :=
  (b.filter = "" ∧ b.name = some cn) ∨ ChildDone b

/-- The name-generation invariant of the shared state: the inputs logged so
far are exactly the registry indices in order, and the temporaries logged
so far are exactly `1, 2, ..., temp_idx` in order. -/
def NamesInv (sh : Shared) : Prop :=
  sh.gen.filterMap inputIdx = List.range sh.input.length ∧
  sh.gen.filterMap tempIdx = List.range' 1 sh.temp_idx

/-- Whether `pat` is a prefix of the second list (plain Boolean check). -/
def startsWithC : List Char → List Char → Bool
  | [], _ => true
  | _ :: _, [] => false
  | p :: ps, c :: cs => p == c && startsWithC ps cs

/-- Whether `pat` occurs as a contiguous substring of the second list. -/
def hasSubC (pat : List Char) : List Char → Bool
  | [] => pat.isEmpty
  | c :: rest => startsWithC pat (c :: rest) || hasSubC pat rest

/-- A root that has gone through exactly one watermark merge (its branch is
left unlabeled by the merge). -/
def mergedRoot : Transform :=
  watermarkOp (mkTransform "v.mp4") "w.png" (1/2) (.int 0) (.int 0) 1 0

/-! ### Lemmas: decimal rendering -/

theorem digitChar_toNat {d : Nat} (h : d < 10) : (digitChar d).toNat = 48 + d := by
  interval_cases d <;> rfl

theorem natDigits_chars :
    ∀ fuel n : Nat, ∀ c ∈ natDigits fuel n, 48 ≤ c.toNat ∧ c.toNat ≤ 57 := by
  intro fuel
  induction fuel with
  | zero => intro n c hc; simp [natDigits] at hc
  | succ fuel ih =>
    intro n c hc
    by_cases h0 : n = 0
    · simp [natDigits, h0] at hc
    · rw [natDigits, if_neg h0] at hc
      rcases List.mem_append.1 hc with h | h
      · exact ih _ c h
      · have hc' : c = digitChar (n % 10) := by simpa using h
        subst hc'
        rw [digitChar_toNat (Nat.mod_lt _ (by norm_num))]
        omega

theorem natRepr_chars :
    ∀ n : Nat, ∀ c ∈ (natRepr n).data, 48 ≤ c.toNat ∧ c.toNat ≤ 57 := by
  intro n c hc
  unfold natRepr at hc
  by_cases h0 : n = 0
  · rw [if_pos h0] at hc
    have hc' : c = '0' := by simpa using hc
    subst hc'; exact ⟨by decide, by decide⟩
  · rw [if_neg h0] at hc
    exact natDigits_chars n n c hc

theorem noSemi_natRepr (n : Nat) : ';' ∉ (natRepr n).data := by
  intro h
  have := natRepr_chars n _ h
  have h59 : (';' : Char).toNat = 59 := rfl
  omega

theorem noSemi_tempName (k : Nat) : ';' ∉ ("temp" ++ natRepr k).data := by
  rw [String.data_append]
  intro h
  rcases List.mem_append.1 h with h | h
  · exact absurd h (by decide)
  · exact noSemi_natRepr k h

theorem digitsVal_append (l : List Char) (c : Char) :
    digitsVal (l ++ [c]) = 10 * digitsVal l + (c.toNat - 48) := by
  simp [digitsVal, List.foldl_append]

theorem digitsVal_natDigits :
    ∀ fuel n : Nat, n ≤ fuel → digitsVal (natDigits fuel n) = n := by
  intro fuel
  induction fuel with
  | zero =>
    intro n h
    have h0 : n = 0 := by omega
    subst h0; simp [natDigits, digitsVal]
  | succ fuel ih =>
    intro n h
    by_cases h0 : n = 0
    · subst h0; simp [natDigits, digitsVal]
    · have hlt : n / 10 ≤ fuel := by
        have := Nat.div_lt_self (Nat.pos_of_ne_zero h0) (by norm_num : 1 < 10)
        omega
      rw [natDigits, if_neg h0, digitsVal_append, ih _ hlt,
        digitChar_toNat (Nat.mod_lt n (by norm_num))]
      omega

theorem natRepr_inj {m n : Nat} (h : natRepr m = natRepr n) : m = n := by
  have hd : (natRepr m).data = (natRepr n).data := by rw [h]
  unfold natRepr at hd
  by_cases hm : m = 0 <;> by_cases hn : n = 0
  · omega
  · exfalso
    rw [if_pos hm, if_neg hn] at hd
    have hv := congrArg digitsVal hd
    rw [digitsVal_natDigits n n le_rfl] at hv
    have h0 : digitsVal ("0".data) = 0 := by decide
    rw [h0] at hv
    exact hn hv.symm
  · exfalso
    rw [if_neg hm, if_pos hn] at hd
    have hv := congrArg digitsVal hd
    rw [digitsVal_natDigits m m le_rfl] at hv
    have h0 : digitsVal ("0".data) = 0 := by decide
    rw [h0] at hv
    exact hm hv
  · rw [if_neg hm, if_neg hn] at hd
    have hv := congrArg digitsVal hd
    rwa [digitsVal_natDigits m m le_rfl, digitsVal_natDigits n n le_rfl] at hv

theorem natRepr_data_ne_nil (n : Nat) : (natRepr n).data ≠ [] := by
  unfold natRepr
  by_cases h0 : n = 0
  · rw [if_pos h0]; decide
  · rw [if_neg h0]
    obtain ⟨fuel, hf⟩ : ∃ f, n = f + 1 := ⟨n - 1, by omega⟩
    show natDigits n n ≠ []
    rw [hf, natDigits, if_neg (by omega : ¬ fuel + 1 = 0)]
    simp

theorem natRepr_head_digit (n : Nat) :
    ∃ c rest, (natRepr n).data = c :: rest ∧ 48 ≤ c.toNat ∧ c.toNat ≤ 57 := by
  rcases hd : (natRepr n).data with _ | ⟨c, rest⟩
  · exact absurd hd (natRepr_data_ne_nil n)
  · refine ⟨c, rest, rfl, ?_⟩
    exact natRepr_chars n c (hd ▸ List.mem_cons_self c rest)

theorem render_inj : Function.Injective GenName.render := by
  intro g1 g2 h
  cases g1 with
  | input i =>
    cases g2 with
    | input j => rw [natRepr_inj (show natRepr i = natRepr j from h)]
    | temp j =>
      exfalso
      have hd := congrArg String.data h
      simp only [GenName.render] at hd
      rw [String.data_append] at hd
      obtain ⟨c, rest, hc, h48, h57⟩ := natRepr_head_digit i
      rw [hc] at hd
      have hc' : c = 't' := by
        have : "temp".data = 't' :: 'e' :: 'm' :: 'p' :: [] := rfl
        rw [this] at hd
        exact (List.cons.injEq _ _ _ _ ▸ hd).1
      rw [hc'] at h57
      have : ('t' : Char).toNat = 116 := rfl
      omega
  | temp i =>
    cases g2 with
    | input j =>
      exfalso
      have hd := congrArg String.data h
      simp only [GenName.render] at hd
      rw [String.data_append] at hd
      obtain ⟨c, rest, hc, h48, h57⟩ := natRepr_head_digit j
      rw [hc] at hd
      have hc' : 't' = c := by
        have ht : "temp".data = 't' :: 'e' :: 'm' :: 'p' :: [] := rfl
        rw [ht] at hd
        exact (List.cons.injEq _ _ _ _ ▸ hd).1
      rw [← hc'] at h57
      have : ('t' : Char).toNat = 116 := rfl
      omega
    | temp j =>
      have hd := congrArg String.data h
      simp only [GenName.render] at hd
      rw [String.data_append, String.data_append] at hd
      have hd' := List.append_cancel_left hd
      rw [natRepr_inj (String.ext hd')]

/-! ### Lemmas: separators in character lists -/

theorem mem_of_headC {l : List Char} {a : Char} (h : l.head? = some a) :
    a ∈ l := by
  cases l with
  | nil => simp at h
  | cons c r =>
    have : c = a := by simpa using h
    exact this ▸ List.mem_cons_self c r

theorem mem_of_getLastC {l : List Char} {a : Char} (h : l.getLast? = some a) :
    a ∈ l := by
  induction l with
  | nil => simp at h
  | cons c r ih =>
    cases r with
    | nil =>
      have : c = a := by simpa using h
      exact this ▸ List.mem_cons_self c []
    | cons d s =>
      rw [List.getLast?_cons_cons] at h
      exact List.mem_cons_of_mem c (ih h)

theorem head_ne_semi {l : List Char} (h : ';' ∉ l) : l.head? ≠ some ';' :=
  fun he => h (mem_of_headC he)

theorem last_ne_semi {l : List Char} (h : ';' ∉ l) : l.getLast? ≠ some ';' :=
  fun he => h (mem_of_getLastC he)

theorem headC_append {l1 l2 : List Char} (h : l1 ≠ []) :
    (l1 ++ l2).head? = l1.head? := by
  cases l1 with
  | nil => exact absurd rfl h
  | cons c r => rfl

theorem getLastC_append {l1 l2 : List Char} (h : l2 ≠ []) :
    (l1 ++ l2).getLast? = l2.getLast? := by
  rw [List.getLast?_append]
  cases hl : l2.getLast? with
  | none => exact absurd (List.getLast?_eq_none_iff.1 hl) h
  | some a => rfl

theorem hds_cons_cons (a b : Char) (l : List Char) :
    hasDoubleSemi (a :: b :: l) =
      ((a == ';' && b == ';') || hasDoubleSemi (b :: l)) := rfl

theorem hds_of_noSemi {l : List Char} (h : ';' ∉ l) :
    hasDoubleSemi l = false := by
  induction l with
  | nil => rfl
  | cons a r ih =>
    cases r with
    | nil => rfl
    | cons b s =>
      rw [hds_cons_cons]
      have ha : (a == ';') = false := by
        simp only [beq_eq_false_iff_ne, ne_eq]
        intro e
        exact h (e ▸ List.mem_cons_self a (b :: s))
      have hr : ';' ∉ b :: s := fun m => h (List.mem_cons_of_mem a m)
      rw [ih hr, ha]
      rfl

theorem hds_cons_semi {l : List Char} (hh : l.head? ≠ some ';')
    (hl : hasDoubleSemi l = false) : hasDoubleSemi (';' :: l) = false := by
  cases l with
  | nil => rfl
  | cons c r =>
    rw [hds_cons_cons]
    have hc : (c == ';') = false := by
      simp only [beq_eq_false_iff_ne, ne_eq]
      intro e
      exact hh (by rw [e]; rfl)
    rw [hl, hc]
    rfl

theorem hds_append {l2 : List Char} (h2 : hasDoubleSemi l2 = false) :
    ∀ l1 : List Char, hasDoubleSemi l1 = false →
      (l1.getLast? = some ';' → l2.head? ≠ some ';') →
      hasDoubleSemi (l1 ++ l2) = false := by
  intro l1
  induction l1 with
  | nil => intro _ _; simpa
  | cons a r ih =>
    intro h1 hb
    cases r with
    | nil =>
      cases l2 with
      | nil => rfl
      | cons c s =>
        have : ([a] ++ (c :: s)) = a :: c :: s := rfl
        rw [this, hds_cons_cons, h2]
        have hac : (a == ';' && c == ';') = false := by
          by_cases hA : a = ';'
          · have hc : c ≠ ';' := by
              intro hc
              exact (hb (by rw [hA]; rfl)) (by rw [hc]; rfl)
            simp [hc]
          · simp [hA]
        rw [hac]
        rfl
    | cons b s =>
      have hsplit : (a :: b :: s) ++ l2 = a :: ((b :: s) ++ l2) := rfl
      rw [hsplit]
      have hcons : a :: ((b :: s) ++ l2) = a :: (b :: (s ++ l2)) := rfl
      rw [hcons, hds_cons_cons]
      rw [hds_cons_cons] at h1
      rcases Bool.or_eq_false_iff.1 h1 with ⟨hab, hrest⟩
      have hb' : (b :: s).getLast? = some ';' → l2.head? ≠ some ';' := by
        intro hx
        exact hb (by rwa [List.getLast?_cons_cons])
      have := ih hrest hb'
      have hback : (b :: s) ++ l2 = b :: (s ++ l2) := rfl
      rw [hback] at this
      rw [this, hab]
      rfl

theorem sepStart_eq_false_iff (s : String) :
    sepStart s = false ↔
      s.data.head? ≠ some ',' ∧ s.data.head? ≠ some ';' := by
  unfold sepStart
  cases hd : s.data with
  | nil => simp
  | cons c r =>
    simp only [List.head?_cons, ne_eq, Option.some.injEq,
      Bool.or_eq_false_iff, beq_eq_false_iff_ne, ne_eq]

theorem data_ne_nil_of_ne {s : String} (h : s ≠ "") : s.data ≠ [] := by
  intro hd
  exact h (String.ext (by rw [hd]))

theorem ne_empty_of_data_ne {s : String} (h : s.data ≠ []) : s ≠ "" := by
  intro he
  rw [he] at h
  exact h rfl

/-! ### Lemmas: fragments and rendered numbers are separator-free -/

theorem noSemi_append {x y : String} (hx : ';' ∉ x.data) (hy : ';' ∉ y.data) :
    ';' ∉ (x ++ y).data := by
  rw [String.data_append]
  intro h
  rcases List.mem_append.1 h with h | h
  · exact hx h
  · exact hy h

theorem fracDigits_chars :
    ∀ (fuel : Nat) (q : ℚ), 0 ≤ q → q < 1 →
      ∀ c ∈ fracDigits fuel q, 48 ≤ c.toNat ∧ c.toNat ≤ 57 := by
  intro fuel
  induction fuel with
  | zero => intro q _ _ c hc; simp [fracDigits] at hc
  | succ fuel ih =>
    intro q h0 h1 c hc
    rw [fracDigits] at hc
    by_cases hq : q = 0
    · rw [if_pos hq] at hc; simp at hc
    · rw [if_neg hq] at hc
      rcases List.mem_cons.1 hc with hc | hc
      · subst hc
        have hfl0 : (0:ℤ) ≤ ⌊q * 10⌋ := Int.floor_nonneg.2 (by positivity)
        have hq10 : q * 10 < 10 := by nlinarith
        have hfl : ⌊q * 10⌋ < 10 := Int.floor_lt.2 (by exact_mod_cast hq10)
        have hd10 : ⌊q * 10⌋.toNat < 10 := by omega
        rw [digitChar_toNat hd10]
        omega
      · exact ih _ (Int.fract_nonneg _) (Int.fract_lt_one _) c hc

theorem noSemi_floatRepr (q : ℚ) : ';' ∉ (floatRepr q).data := by
  unfold floatRepr
  intro h
  simp only [String.data_append, List.mem_append] at h
  rcases h with ((h | h) | h) | h
  · by_cases hq : q < 0
    · rw [if_pos hq] at h; exact absurd h (by decide)
    · rw [if_neg hq] at h; exact absurd h (by decide)
  · exact noSemi_natRepr _ h
  · exact absurd h (by decide)
  · by_cases he : (fracDigits 17 (Int.fract |q|)).isEmpty
    · rw [if_pos he] at h; exact absurd h (by decide)
    · rw [if_neg he] at h
      have hb := fracDigits_chars 17 (Int.fract |q|) (Int.fract_nonneg _)
        (Int.fract_lt_one _) ';' h
      have h59 : (';' : Char).toNat = 59 := rfl
      omega

theorem noSemi_intRepr (i : Int) : ';' ∉ (intRepr i).data := by
  unfold intRepr
  by_cases hi : i < 0
  · rw [if_pos hi]
    exact noSemi_append (by decide) (noSemi_natRepr _)
  · rw [if_neg hi]
    exact noSemi_natRepr _

theorem fragOK_append {x y : String} (hx : FragOK x) (hy : ';' ∉ y.data) :
    FragOK (x ++ y) := by
  obtain ⟨h1, h2, h3⟩ := hx
  refine ⟨?_, ?_, ?_⟩
  · rw [String.data_append]; simp [h1]
  · exact fun h => (by
      rw [String.data_append] at h
      rcases List.mem_append.1 h with h | h
      exacts [h2 h, hy h])
  · rw [String.data_append, headC_append h1]; exact h3

/-! ### Lemmas: the chain primitive preserves well-formedness -/

theorem goodB_chainF {b : BranchS} {f : String} (hb : GoodB b)
    (hf : FragOK f) : GoodB (chainF b f) := by
  obtain ⟨hs, hd, hl, hn⟩ := hb
  obtain ⟨hf1, hf2, hf3⟩ := hf
  unfold chainF
  by_cases ht : strTruthy b.name = true
  · rw [if_pos ht]
    obtain ⟨s, hsome⟩ : ∃ s, b.name = some s := by
      cases hname : b.name with
      | none => rw [hname] at ht; exact absurd ht (by simp [strTruthy])
      | some s => exact ⟨s, rfl⟩
    have hss : ';' ∉ s.data := hn s hsome
    rw [hsome]
    have hgd : (Option.getD (some s) "") = s := rfl
    rw [hgd]
    have hdata : (b.filter ++ "[" ++ s ++ "]" ++ f).data =
        b.filter.data ++ (('[' :: s.data ++ [']']) ++ f.data) := by
      simp [String.data_append]
    have hchunk : ';' ∉ ('[' :: s.data ++ [']']) ++ f.data := by
      intro hm
      rcases List.mem_append.1 hm with hm | hm
      · rcases List.mem_cons.1 hm with hm | hm
        · exact absurd hm (by decide)
        · rcases List.mem_append.1 hm with hm | hm
          · exact hss hm
          · exact absurd hm (by decide)
      · exact hf2 hm
    have hchunkne : ('[' :: s.data ++ [']']) ++ f.data ≠ [] := by simp
    refine ⟨?_, ?_, ?_, ?_⟩
    · rw [sepStart_eq_false_iff]
      show ((b.filter ++ "[" ++ s ++ "]" ++ f).data.head? ≠ some ',') ∧ _
      rw [hdata]
      by_cases hbf : b.filter.data = []
      · rw [hbf, List.nil_append]
        constructor
        · intro hcontr
          simp only [List.cons_append, List.head?_cons,
            Option.some.injEq] at hcontr
          exact absurd hcontr (by decide)
        · intro hcontr
          simp only [List.cons_append, List.head?_cons,
            Option.some.injEq] at hcontr
          exact absurd hcontr (by decide)
      · rw [headC_append hbf]
        exact (sepStart_eq_false_iff b.filter).1 hs
    · show hasDoubleSemi (b.filter ++ "[" ++ s ++ "]" ++ f).data = false
      rw [hdata]
      exact hds_append (hds_of_noSemi hchunk) _ hd (fun hx => absurd hx hl)
    · show (b.filter ++ "[" ++ s ++ "]" ++ f).data.getLast? ≠ some ';'
      rw [hdata, getLastC_append hchunkne, getLastC_append hf1]
      exact last_ne_semi hf2
    · intro s' hcontr
      simp at hcontr
  · rw [if_neg ht]
    by_cases hbf : b.filter = ""
    · have hsep : pySep b.filter "," = "" := by
        unfold pySep
        rw [if_neg (by simpa using hbf)]
      have hdata : (b.filter ++ pySep b.filter "," ++ f).data = f.data := by
        rw [hsep, hbf]
        rfl
      refine ⟨?_, ?_, ?_, ?_⟩
      · rw [sepStart_eq_false_iff]
        show ((b.filter ++ pySep b.filter "," ++ f).data.head? ≠ some ',') ∧ _
        rw [hdata]
        exact ⟨hf3, head_ne_semi hf2⟩
      · show hasDoubleSemi (b.filter ++ pySep b.filter "," ++ f).data = false
        rw [hdata]
        exact hds_of_noSemi hf2
      · show (b.filter ++ pySep b.filter "," ++ f).data.getLast? ≠ some ';'
        rw [hdata]
        exact last_ne_semi hf2
      · exact hn
    · have hsep : pySep b.filter "," = "," := by
        unfold pySep
        rw [if_pos (by simpa using hbf)]
      have hdata : (b.filter ++ pySep b.filter "," ++ f).data =
          b.filter.data ++ (',' :: f.data) := by
        rw [hsep]
        simp [String.data_append]
      have hchunk : ';' ∉ ',' :: f.data := by
        intro hm
        rcases List.mem_cons.1 hm with hm | hm
        · exact absurd hm (by decide)
        · exact hf2 hm
      refine ⟨?_, ?_, ?_, ?_⟩
      · rw [sepStart_eq_false_iff]
        show ((b.filter ++ pySep b.filter "," ++ f).data.head? ≠ some ',') ∧ _
        rw [hdata, headC_append (data_ne_nil_of_ne hbf)]
        exact (sepStart_eq_false_iff b.filter).1 hs
      · show hasDoubleSemi (b.filter ++ pySep b.filter "," ++ f).data = false
        rw [hdata]
        exact hds_append (hds_of_noSemi hchunk) _ hd (fun hx => absurd hx hl)
      · show (b.filter ++ pySep b.filter "," ++ f).data.getLast? ≠ some ';'
        rw [hdata, getLastC_append (by simp : (',' :: f.data) ≠ [])]
        have : (',' :: f.data).getLast? = f.data.getLast? := by
          cases hfd : f.data with
          | nil => exact absurd hfd hf1
          | cons c r => rw [List.getLast?_cons_cons]
        rw [this]
        exact last_ne_semi hf2
      · exact hn

/-! ### Lemmas: close and merge preserve well-formedness -/

theorem goodB_endB {sh : Shared} {b : BranchS} (hb : GoodB b) :
    GoodB (endB sh b).2.1 ∧ ';' ∉ (endB sh b).2.2.data := by
  obtain ⟨hs, hd, hl, hn⟩ := hb
  unfold endB
  by_cases ht : strTruthy b.name = true
  · rw [if_pos ht]
    obtain ⟨s, hsome⟩ : ∃ s, b.name = some s := by
      cases hname : b.name with
      | none => rw [hname] at ht; exact absurd ht (by simp [strTruthy])
      | some s => exact ⟨s, rfl⟩
    refine ⟨⟨hs, hd, hl, hn⟩, ?_⟩
    rw [hsome]
    exact hn s hsome
  · rw [if_neg ht]
    simp only [genTemp]
    refine ⟨⟨?_, ?_, ?_, ?_⟩, noSemi_tempName _⟩
    · rw [sepStart_eq_false_iff]
      have hdata : (b.filter ++ "[" ++ ("temp" ++ natRepr (sh.temp_idx + 1)) ++
          "]").data = b.filter.data ++
          ('[' :: ("temp" ++ natRepr (sh.temp_idx + 1)).data ++ [']']) := by
        simp [String.data_append]
      rw [hdata]
      by_cases hbf : b.filter.data = []
      · rw [hbf, List.nil_append]
        constructor
        · intro hcontr
          simp only [List.cons_append, List.head?_cons,
            Option.some.injEq] at hcontr
          exact absurd hcontr (by decide)
        · intro hcontr
          simp only [List.cons_append, List.head?_cons,
            Option.some.injEq] at hcontr
          exact absurd hcontr (by decide)
      · rw [headC_append hbf]
        exact (sepStart_eq_false_iff b.filter).1 hs
    · have hdata : (b.filter ++ "[" ++ ("temp" ++ natRepr (sh.temp_idx + 1)) ++
          "]").data = b.filter.data ++
          ('[' :: ("temp" ++ natRepr (sh.temp_idx + 1)).data ++ [']']) := by
        simp [String.data_append]
      show hasDoubleSemi _ = false
      rw [hdata]
      refine hds_append (hds_of_noSemi ?_) _ hd (fun hx => absurd hx hl)
      intro hm
      rcases List.mem_cons.1 hm with hm | hm
      · exact absurd hm (by decide)
      · rcases List.mem_append.1 hm with hm | hm
        · exact noSemi_tempName _ hm
        · exact absurd hm (by decide)
    · have hdata : (b.filter ++ "[" ++ ("temp" ++ natRepr (sh.temp_idx + 1)) ++
          "]").data = b.filter.data ++
          (('[' :: ("temp" ++ natRepr (sh.temp_idx + 1)).data) ++ [']']) := by
        simp [String.data_append]
      show List.getLast? _ ≠ some ';'
      rw [hdata, getLastC_append (by simp), getLastC_append (by simp)]
      decide
    · exact hn

theorem endB_child_facts {sh : Shared} {b : BranchS} (hc : ChildDone b) :
    (endB sh b).2.1.filter.data ≠ [] ∧
    (endB sh b).2.1.filter.data.head? = some '[' ∧
    ';' ∉ (endB sh b).2.1.filter.data ∧
    ';' ∉ (endB sh b).2.2.data := by
  obtain ⟨h1, h2, h3, h4⟩ := hc
  unfold endB
  have ht : strTruthy b.name = false := by rw [h3]; rfl
  rw [if_neg (by rw [ht]; exact Bool.false_ne_true)]
  simp only [genTemp]
  have hdata : (b.filter ++ "[" ++ ("temp" ++ natRepr (sh.temp_idx + 1)) ++
      "]").data = b.filter.data ++
      ('[' :: ("temp" ++ natRepr (sh.temp_idx + 1)).data ++ [']']) := by
    simp [String.data_append]
  refine ⟨?_, ?_, ?_, noSemi_tempName _⟩
  · rw [hdata]; simp [h1]
  · rw [hdata, headC_append h1]; exact h2
  · rw [hdata]
    intro hm
    rcases List.mem_append.1 hm with hm | hm
    · exact h4 hm
    · rcases List.mem_cons.1 hm with hm | hm
      · exact absurd hm (by decide)
      · rcases List.mem_append.1 hm with hm | hm
        · exact noSemi_tempName _ hm
        · exact absurd hm (by decide)

theorem goodB_mergeShape {F C n1 n2 merger : String}
    (hFs : sepStart F = false) (hFd : hasDoubleSemi F.data = false)
    (hFl : F.data.getLast? ≠ some ';')
    (hCne : C.data ≠ []) (hCh : C.data.head? = some '[') (hCs : ';' ∉ C.data)
    (hn1 : ';' ∉ n1.data) (hn2 : ';' ∉ n2.data)
    (hm1 : ';' ∉ merger.data) (hm2 : merger.data ≠ []) :
    GoodB { filter := F ++ pySep F ";" ++ C ++ ";" ++ "[" ++ n1 ++ "][" ++
      n2 ++ "]" ++ merger, name := none } := by
  have hE : ';' ∉ ('[' :: (n1.data ++ ']' :: '[' :: (n2.data ++
      ']' :: merger.data))) := by
    intro hm
    rcases List.mem_cons.1 hm with hm | hm
    · exact absurd hm (by decide)
    rcases List.mem_append.1 hm with hm | hm
    · exact hn1 hm
    rcases List.mem_cons.1 hm with hm | hm
    · exact absurd hm (by decide)
    rcases List.mem_cons.1 hm with hm | hm
    · exact absurd hm (by decide)
    rcases List.mem_append.1 hm with hm | hm
    · exact hn2 hm
    rcases List.mem_cons.1 hm with hm | hm
    · exact absurd hm (by decide)
    · exact hm1 hm
  have hEhd : (';' :: ('[' :: (n1.data ++ ']' :: '[' :: (n2.data ++
      ']' :: merger.data)))).head? ≠ some ';' → True := fun _ => trivial
  have hCE : hasDoubleSemi (C.data ++ ';' :: ('[' :: (n1.data ++ ']' :: '[' ::
      (n2.data ++ ']' :: merger.data)))) = false := by
    refine hds_append ?_ _ (hds_of_noSemi hCs) (fun hx => absurd hx
      (last_ne_semi hCs))
    exact hds_cons_semi (by simp) (hds_of_noSemi hE)
  have hCEhead : (C.data ++ ';' :: ('[' :: (n1.data ++ ']' :: '[' ::
      (n2.data ++ ']' :: merger.data)))).head? = some '[' := by
    rw [headC_append hCne]; exact hCh
  by_cases hFe : F = ""
  · subst hFe
    have hsep : pySep "" ";" = "" := by unfold pySep; rw [if_neg (by simp)]
    have hdata : (("" : String) ++ pySep "" ";" ++ C ++ ";" ++ "[" ++ n1 ++
        "][" ++ n2 ++ "]" ++ merger).data =
        C.data ++ ';' :: ('[' :: (n1.data ++ ']' :: '[' :: (n2.data ++
          ']' :: merger.data))) := by
      rw [hsep]
      simp [String.data_append]
    refine ⟨?_, ?_, ?_, ?_⟩
    · rw [sepStart_eq_false_iff]
      show ((("" : String) ++ pySep "" ";" ++ C ++ ";" ++ "[" ++ n1 ++ "][" ++
        n2 ++ "]" ++ merger).data.head? ≠ some ',') ∧ _
      rw [hdata, hCEhead]
      constructor <;> intro hcontr <;> exact absurd hcontr (by decide)
    · show hasDoubleSemi _ = false
      rw [hdata]
      exact hCE
    · show List.getLast? _ ≠ some ';'
      rw [hdata]
      have : (C.data ++ ';' :: ('[' :: (n1.data ++ ']' :: '[' :: (n2.data ++
          ']' :: merger.data)))) = (C.data ++ ';' :: ('[' :: (n1.data ++
          ']' :: '[' :: (n2.data ++ [']'])))) ++ merger.data := by
        simp
      rw [this, getLastC_append hm2]
      exact last_ne_semi hm1
    · intro s hcontr; simp at hcontr
  · have hsep : pySep F ";" = ";" := by
      unfold pySep; rw [if_pos (by simpa using hFe)]
    have hdata : (F ++ pySep F ";" ++ C ++ ";" ++ "[" ++ n1 ++
        "][" ++ n2 ++ "]" ++ merger).data =
        F.data ++ ';' :: (C.data ++ ';' :: ('[' :: (n1.data ++ ']' :: '[' ::
          (n2.data ++ ']' :: merger.data)))) := by
      rw [hsep]
      simp [String.data_append]
    refine ⟨?_, ?_, ?_, ?_⟩
    · rw [sepStart_eq_false_iff]
      show ((F ++ pySep F ";" ++ C ++ ";" ++ "[" ++ n1 ++ "][" ++
        n2 ++ "]" ++ merger).data.head? ≠ some ',') ∧ _
      rw [hdata, headC_append (data_ne_nil_of_ne hFe)]
      exact (sepStart_eq_false_iff F).1 hFs
    · show hasDoubleSemi _ = false
      rw [hdata]
      refine hds_append ?_ _ hFd (fun hx => absurd hx hFl)
      refine hds_cons_semi ?_ hCE
      rw [hCEhead]
      decide
    · show List.getLast? _ ≠ some ';'
      rw [hdata]
      have : (F.data ++ ';' :: (C.data ++ ';' :: ('[' :: (n1.data ++
          ']' :: '[' :: (n2.data ++ ']' :: merger.data))))) =
          (F.data ++ ';' :: (C.data ++ ';' :: ('[' :: (n1.data ++
          ']' :: '[' :: (n2.data ++ [']']))))) ++ merger.data := by
        simp
      rw [this, getLastC_append hm2]
      exact last_ne_semi hm1
    · intro s hcontr; simp at hcontr

theorem goodB_mergeB {sh : Shared} {self other : BranchS} {merger : String}
    (hb : GoodB self) (hc : ChildDone other)
    (hm1 : ';' ∉ merger.data) (hm2 : merger.data ≠ []) :
    GoodB (mergeB sh self other merger).2 := by
  obtain ⟨hF, hn1⟩ := @goodB_endB sh self hb
  obtain ⟨hCne, hCh, hCs, hn2⟩ :=
    @endB_child_facts (endB sh self).1 other hc
  exact goodB_mergeShape hF.1 hF.2.1 hF.2.2.1 hCne hCh hCs hn1 hn2 hm1 hm2

/-! ### Lemmas: every chained fragment is well-formed -/

theorem fragOK_scaleFrag (r : ℚ) :
    FragOK ("scale=round(iw*" ++ floatRepr r ++ "/2)*2:round(ih*" ++
      floatRepr r ++ "/2)*2") :=
  fragOK_append (fragOK_append (fragOK_append (fragOK_append (⟨by decide, by decide, by decide⟩) (noSemi_floatRepr r)) (by decide)) (noSemi_floatRepr r)) (by decide)

theorem noSemi_radian (an : ℚ) : ';' ∉ (floatRepr an ++ "*PI/180").data :=
  noSemi_append (noSemi_floatRepr an) (by decide)

theorem fragOK_rotateFrag {rad : String} (h : ';' ∉ rad.data) :
    FragOK ("rotate=" ++ rad ++ ":iw*abs(cos(" ++ rad ++ "))+ih*abs(sin(" ++
      rad ++ ")):iw*abs(sin(" ++ rad ++ "))+ih*abs(cos(" ++ rad ++
      ")):fillcolor=none") :=
  fragOK_append (fragOK_append (fragOK_append (fragOK_append (fragOK_append (fragOK_append (fragOK_append (fragOK_append (fragOK_append (fragOK_append (⟨by decide, by decide, by decide⟩) (h)) (by decide)) (h)) (by decide)) (h)) (by decide)) (h)) (by decide)) (h)) (by decide)

theorem fragOK_brightnessFrag (br : ℚ) :
    FragOK ("eq=brightness=" ++ floatRepr br) :=
  fragOK_append ⟨by decide, by decide, by decide⟩ (noSemi_floatRepr br)

theorem fragOK_alphaFrag (a : ℚ) :
    FragOK ("format=rgba,colorchannelmixer=aa=" ++ floatRepr a) :=
  fragOK_append ⟨by decide, by decide, by decide⟩ (noSemi_floatRepr a)

theorem fragOK_cropFrag {w h x y : Expr} (hw : w.semiFree) (hh : h.semiFree)
    (hx : x.semiFree) (hy : y.semiFree) :
    FragOK ("crop=" ++ w.format ++ ":" ++ h.format ++ ":" ++ x.format ++
      ":" ++ y.format) :=
  fragOK_append (fragOK_append (fragOK_append (fragOK_append (fragOK_append (fragOK_append (fragOK_append (⟨by decide, by decide, by decide⟩) (hw)) (by decide)) (hh)) (by decide)) (hx)) (by decide)) (hy)

theorem fragOK_paddingFrag {tp r bt l : Expr} (htp : tp.semiFree)
    (hr : r.semiFree) (hbt : bt.semiFree) (hl : l.semiFree) :
    FragOK ("pad=iw+" ++ l.format ++ "+" ++ r.format ++ ":ih+" ++
      tp.format ++ "+" ++ bt.format ++ ":" ++ l.format ++ ":" ++ tp.format) :=
  fragOK_append (fragOK_append (fragOK_append (fragOK_append (fragOK_append (fragOK_append (fragOK_append (fragOK_append (fragOK_append (fragOK_append (fragOK_append (⟨by decide, by decide, by decide⟩) (hl)) (by decide)) (hr)) (by decide)) (htp)) (by decide)) (hbt)) (by decide)) (hl)) (by decide)) (htp)

theorem noSemi_overlay {x y : Expr} (hx : x.semiFree) (hy : y.semiFree) :
    ';' ∉ ("overlay=" ++ x.format ++ ":" ++ y.format).data :=
  noSemi_append (noSemi_append (noSemi_append (by decide) hx) (by decide)) hy

theorem overlay_ne_nil (x y : Expr) :
    ("overlay=" ++ x.format ++ ":" ++ y.format).data ≠ [] := by
  simp only [String.data_append]
  simp

/-! ### Lemmas: the watermark child branch -/

theorem childDone_chainF {b : BranchS} {cn : String} {f : String}
    (hst : ChildSt cn b) (hcn : ';' ∉ cn.data) (hcne : cn ≠ "")
    (hf : FragOK f) : ChildDone (chainF b f) := by
  obtain ⟨hf1, hf2, hf3⟩ := hf
  rcases hst with ⟨hbf, hbn⟩ | ⟨h1, h2, h3, h4⟩
  · have ht : strTruthy b.name = true := by
      rw [hbn]; simpa [strTruthy] using hcne
    unfold chainF
    rw [if_pos ht, hbn]
    have hgd : (Option.getD (some cn) "") = cn := rfl
    rw [hgd]
    have hdata : (b.filter ++ "[" ++ cn ++ "]" ++ f).data =
        '[' :: (cn.data ++ ']' :: f.data) := by
      rw [hbf]
      simp [String.data_append]
    refine ⟨?_, ?_, rfl, ?_⟩
    · show (b.filter ++ "[" ++ cn ++ "]" ++ f).data ≠ []
      rw [hdata]; simp
    · show (b.filter ++ "[" ++ cn ++ "]" ++ f).data.head? = some '['
      rw [hdata]; rfl
    · show ';' ∉ (b.filter ++ "[" ++ cn ++ "]" ++ f).data
      rw [hdata]
      intro hm
      rcases List.mem_cons.1 hm with hm | hm
      · exact absurd hm (by decide)
      rcases List.mem_append.1 hm with hm | hm
      · exact hcn hm
      rcases List.mem_cons.1 hm with hm | hm
      · exact absurd hm (by decide)
      · exact hf2 hm
  · have ht : strTruthy b.name = false := by rw [h3]; rfl
    unfold chainF
    rw [if_neg (by rw [ht]; exact Bool.false_ne_true)]
    have hsep : pySep b.filter "," = "," := by
      unfold pySep
      rw [if_pos (by simpa using ne_empty_of_data_ne h1)]
    have hdata : (b.filter ++ pySep b.filter "," ++ f).data =
        b.filter.data ++ (',' :: f.data) := by
      rw [hsep]
      simp [String.data_append]
    refine ⟨?_, ?_, h3, ?_⟩
    · show (b.filter ++ pySep b.filter "," ++ f).data ≠ []
      rw [hdata]; simp
    · show (b.filter ++ pySep b.filter "," ++ f).data.head? = some '['
      rw [hdata, headC_append h1]; exact h2
    · show ';' ∉ (b.filter ++ pySep b.filter "," ++ f).data
      rw [hdata]
      intro hm
      rcases List.mem_append.1 hm with hm | hm
      · exact h4 hm
      rcases List.mem_cons.1 hm with hm | hm
      · exact absurd hm (by decide)
      · exact hf2 hm

theorem childSt_scaleB {b : BranchS} {cn : String} (hst : ChildSt cn b)
    (hcn : ';' ∉ cn.data) (hcne : cn ≠ "") (sc : ℚ) :
    ChildSt cn (scaleB sc b) := by
  unfold scaleB
  by_cases hsc : sc ≠ 1
  · rw [if_pos hsc]
    exact Or.inr (childDone_chainF hst hcn hcne (fragOK_scaleFrag sc))
  · rw [if_neg hsc]
    exact hst

theorem childDone_scaleB {b : BranchS} {cn : String} (hst : ChildSt cn b)
    (hcn : ';' ∉ cn.data) (hcne : cn ≠ "") {sc : ℚ} (hsc : sc ≠ 1) :
    ChildDone (scaleB sc b) := by
  unfold scaleB
  rw [if_pos hsc]
  exact childDone_chainF hst hcn hcne (fragOK_scaleFrag sc)

theorem childSt_rotateB {b : BranchS} {cn : String} (hst : ChildSt cn b)
    (hcn : ';' ∉ cn.data) (hcne : cn ≠ "") (an : ℚ) :
    ChildSt cn (rotateB an b) := by
  unfold rotateB
  by_cases h90 : pyMod an 360 = 90
  · rw [if_pos h90]
    exact Or.inr (childDone_chainF hst hcn hcne ⟨by decide, by decide, by decide⟩)
  rw [if_neg h90]
  by_cases h180 : pyMod an 360 = 180
  · rw [if_pos h180]
    exact Or.inr (childDone_chainF hst hcn hcne ⟨by decide, by decide, by decide⟩)
  rw [if_neg h180]
  by_cases h270 : pyMod an 360 = 270
  · rw [if_pos h270]
    exact Or.inr (childDone_chainF hst hcn hcne ⟨by decide, by decide, by decide⟩)
  rw [if_neg h270]
  by_cases h0 : pyMod an 360 ≠ 0
  · rw [if_pos h0]
    exact Or.inr (childDone_chainF hst hcn hcne
      (fragOK_rotateFrag (noSemi_radian _)))
  · rw [if_neg h0]
    exact hst

theorem childDone_rotateB {b : BranchS} {cn : String} (hst : ChildSt cn b)
    (hcn : ';' ∉ cn.data) (hcne : cn ≠ "") {an : ℚ}
    (han : pyMod an 360 ≠ 0) : ChildDone (rotateB an b) := by
  unfold rotateB
  by_cases h90 : pyMod an 360 = 90
  · rw [if_pos h90]
    exact childDone_chainF hst hcn hcne ⟨by decide, by decide, by decide⟩
  rw [if_neg h90]
  by_cases h180 : pyMod an 360 = 180
  · rw [if_pos h180]
    exact childDone_chainF hst hcn hcne ⟨by decide, by decide, by decide⟩
  rw [if_neg h180]
  by_cases h270 : pyMod an 360 = 270
  · rw [if_pos h270]
    exact childDone_chainF hst hcn hcne ⟨by decide, by decide, by decide⟩
  rw [if_neg h270, if_pos han]
  exact childDone_chainF hst hcn hcne (fragOK_rotateFrag (noSemi_radian _))

theorem childSt_alphaB {b : BranchS} {cn : String} (hst : ChildSt cn b)
    (hcn : ';' ∉ cn.data) (hcne : cn ≠ "") (a : ℚ) :
    ChildSt cn (alphaB a b) := by
  unfold alphaB
  by_cases ha : a ≠ 1
  · rw [if_pos ha]
    exact Or.inr (childDone_chainF hst hcn hcne (fragOK_alphaFrag a))
  · rw [if_neg ha]
    exact hst

theorem childDone_watermarkChild {cn : String} (hcn : ';' ∉ cn.data)
    (hcne : cn ≠ "") {a sc an : ℚ}
    (heff : sc ≠ 1 ∨ pyMod an 360 ≠ 0 ∨ a ≠ 1) :
    ChildDone (alphaB a (rotateB an (scaleB sc
      { filter := "", name := some cn }))) := by
  have hst0 : ChildSt cn { filter := "", name := some cn } :=
    Or.inl ⟨rfl, rfl⟩
  by_cases ha : a ≠ 1
  · unfold alphaB
    rw [if_pos ha]
    exact childDone_chainF
      (childSt_rotateB (childSt_scaleB hst0 hcn hcne sc) hcn hcne an)
      hcn hcne (fragOK_alphaFrag a)
  · have hid : alphaB a (rotateB an (scaleB sc
        { filter := "", name := some cn })) =
        rotateB an (scaleB sc { filter := "", name := some cn }) := by
      unfold alphaB
      rw [if_neg ha]
    rw [hid]
    by_cases han : pyMod an 360 ≠ 0
    · exact childDone_rotateB (childSt_scaleB hst0 hcn hcne sc) hcn hcne han
    · have hsc : sc ≠ 1 := by
        rcases heff with h | h | h
        · exact h
        · exact absurd h han
        · exact absurd h ha
      have hid2 : rotateB an (scaleB sc { filter := "", name := some cn }) =
          scaleB sc { filter := "", name := some cn } := by
        unfold rotateB
        push_neg at han
        rw [if_neg (by rw [han]; norm_num), if_neg (by rw [han]; norm_num),
          if_neg (by rw [han]; norm_num), if_neg (by simpa using han)]
      rw [hid2]
      exact childDone_scaleB hst0 hcn hcne hsc

/-! ### Lemmas: every C2 operation preserves branch well-formedness -/

theorem goodB_scaleB {b : BranchS} (hb : GoodB b) (r : ℚ) :
    GoodB (scaleB r b) := by
  unfold scaleB
  by_cases hr : r ≠ 1
  · rw [if_pos hr]
    exact goodB_chainF hb (fragOK_scaleFrag r)
  · rw [if_neg hr]
    exact hb

theorem goodB_rotateB {b : BranchS} (hb : GoodB b) (an : ℚ) :
    GoodB (rotateB an b) := by
  unfold rotateB
  by_cases h90 : pyMod an 360 = 90
  · rw [if_pos h90]
    exact goodB_chainF hb ⟨by decide, by decide, by decide⟩
  rw [if_neg h90]
  by_cases h180 : pyMod an 360 = 180
  · rw [if_pos h180]
    exact goodB_chainF hb ⟨by decide, by decide, by decide⟩
  rw [if_neg h180]
  by_cases h270 : pyMod an 360 = 270
  · rw [if_pos h270]
    exact goodB_chainF hb ⟨by decide, by decide, by decide⟩
  rw [if_neg h270]
  by_cases h0 : pyMod an 360 ≠ 0
  · rw [if_pos h0]
    exact goodB_chainF hb (fragOK_rotateFrag (noSemi_radian _))
  · rw [if_neg h0]
    exact hb

theorem goodB_alphaB {b : BranchS} (hb : GoodB b) (a : ℚ) :
    GoodB (alphaB a b) := by
  unfold alphaB
  by_cases ha : a ≠ 1
  · rw [if_pos ha]
    exact goodB_chainF hb (fragOK_alphaFrag a)
  · rw [if_neg ha]
    exact hb

theorem goodB_watermarkOp {t : Transform} (hb : GoodB t.branch)
    (img : String) {a sc an : ℚ} {x y : Expr}
    (hx : x.semiFree) (hy : y.semiFree)
    (heff : sc ≠ 1 ∨ pyMod an 360 ≠ 0 ∨ a ≠ 1) :
    GoodB (watermarkOp t img a x y sc an).branch := by
  have hcn : ';' ∉ ((inputReg t.shared img).2).data := noSemi_natRepr _
  have hcne : (inputReg t.shared img).2 ≠ "" :=
    ne_empty_of_data_ne (natRepr_data_ne_nil _)
  have hchild := @childDone_watermarkChild (inputReg t.shared img).2
    hcn hcne a sc an heff
  show GoodB (mergeB (inputReg t.shared img).1 t.branch
    (alphaB a (rotateB an (scaleB sc
      { filter := "", name := some (inputReg t.shared img).2 })))
    ("overlay=" ++ x.format ++ ":" ++ y.format)).2
  exact goodB_mergeB hb hchild (noSemi_overlay hx hy) (overlay_ne_nil x y)

theorem applyOp_no_raise {op : Op} (hop : C2Op op) (probe : Option ℚ)
    (t : Transform) : applyOp probe t op = ((applyOp probe t op).1, false) := by
  cases op <;> first | rfl | exact hop.elim

theorem goodB_applyOp {t : Transform} {op : Op} (probe : Option ℚ)
    (hb : GoodB t.branch) (hop : C2Op op) :
    GoodB ((applyOp probe t op).1).branch := by
  cases op with
  | watermark img a x y sc an =>
    obtain ⟨hx, hy, heff⟩ := hop
    exact goodB_watermarkOp hb img hx hy heff
  | padding tp r bt l =>
    obtain ⟨h1, h2, h3, h4⟩ := hop
    exact goodB_chainF hb (fragOK_paddingFrag h1 h2 h3 h4)
  | duration a b => exact hop.elim
  | scale r => exact goodB_scaleB hb r
  | rotate an => exact goodB_rotateB hb an
  | brightness br => exact goodB_chainF hb (fragOK_brightnessFrag br)
  | mirror => exact goodB_chainF hb ⟨by decide, by decide, by decide⟩
  | crop w h x y =>
    obtain ⟨h1, h2, h3, h4⟩ := hop
    exact goodB_chainF hb (fragOK_cropFrag h1 h2 h3 h4)
  | alpha a => exact goodB_alphaB hb a
  | close => exact hop.elim

theorem goodB_runOps (probe : Option ℚ) :
    ∀ (ops : List Op) (t : Transform), GoodB t.branch →
      (∀ op ∈ ops, C2Op op) → GoodB (runOps probe ops t).branch := by
  intro ops
  induction ops with
  | nil => intro t hb _; exact hb
  | cons op ops ih =>
    intro t hb hops
    have hop : C2Op op := hops op (List.mem_cons_self op ops)
    rw [runOps, applyOp_no_raise hop probe t]
    exact ih _ (goodB_applyOp probe hb hop)
      (fun o ho => hops o (List.mem_cons_of_mem op ho))

/-! ### Lemmas: generated names are `0..n-1` and `temp1..tempK`, all unique -/

theorem namesInv_inputReg {sh : Shared} (h : NamesInv sh) (p : String) :
    NamesInv (inputReg sh p).1 := by
  obtain ⟨h1, h2⟩ := h
  refine ⟨?_, ?_⟩
  · show (sh.gen ++ [GenName.input ((sh.input ++ [p]).length - 1)]).filterMap
      inputIdx = List.range (sh.input ++ [p]).length
    rw [List.filterMap_append, h1]
    have hlen : (sh.input ++ [p]).length = sh.input.length + 1 := by simp
    rw [hlen]
    have hone : List.filterMap inputIdx
        [GenName.input (sh.input.length + 1 - 1)] = [sh.input.length] := by
      simp [inputIdx]
    rw [hone, ← List.range_succ]
  · show (sh.gen ++ [GenName.input ((sh.input ++ [p]).length - 1)]).filterMap
      tempIdx = List.range' 1 sh.temp_idx
    rw [List.filterMap_append, h2]
    simp [tempIdx]

theorem namesInv_genTemp {sh : Shared} (h : NamesInv sh) :
    NamesInv (genTemp sh).1 := by
  obtain ⟨h1, h2⟩ := h
  refine ⟨?_, ?_⟩
  · show (sh.gen ++ [GenName.temp (sh.temp_idx + 1)]).filterMap inputIdx =
      List.range sh.input.length
    rw [List.filterMap_append, h1]
    simp [inputIdx]
  · show (sh.gen ++ [GenName.temp (sh.temp_idx + 1)]).filterMap tempIdx =
      List.range' 1 (sh.temp_idx + 1)
    rw [List.filterMap_append, h2]
    have hone : List.filterMap tempIdx [GenName.temp (sh.temp_idx + 1)] =
        [sh.temp_idx + 1] := by simp [tempIdx]
    rw [hone]
    have hcat := @List.range'_concat 1 1 sh.temp_idx
    rw [hcat]
    congr 1
    simp [Nat.add_comm]

theorem namesInv_endB {sh : Shared} {b : BranchS} (h : NamesInv sh) :
    NamesInv (endB sh b).1 := by
  unfold endB
  by_cases ht : strTruthy b.name = true
  · rw [if_pos ht]; exact h
  · rw [if_neg ht]; exact namesInv_genTemp h

theorem durationRun_shared (t : Transform) (a b : ℚ) (probe : Option ℚ) :
    (durationRun t a b probe).1.shared = t.shared := by
  unfold durationRun
  by_cases h : ¬(a + b ≤ 1)
  · rw [if_pos h]
  · rw [if_neg h]
    cases hnd : t.now_duration with
    | none => cases probe <;> rfl
    | some w => cases w; rfl

theorem namesInv_applyOp {t : Transform} (probe : Option ℚ) (op : Op)
    (h : NamesInv t.shared) : NamesInv ((applyOp probe t op).1).shared := by
  cases op with
  | watermark img a x y sc an =>
    exact namesInv_endB (namesInv_endB (namesInv_inputReg h img))
  | duration a b =>
    have hsh := durationRun_shared t a b probe
    show NamesInv ((applyOp probe t (.duration a b)).1).shared
    rcases hdr : durationRun t a b probe with ⟨t1, e⟩
    rw [hdr] at hsh
    have hred : (applyOp probe t (.duration a b)).1 = t1 := by
      simp only [applyOp]
      rw [hdr]
      cases e <;> rfl
    rw [hred, hsh]
    exact h
  | close => exact namesInv_endB h
  | padding tp r bt l => exact h
  | scale r => exact h
  | rotate an => exact h
  | brightness br => exact h
  | mirror => exact h
  | crop w hh x y => exact h
  | alpha a => exact h

theorem namesInv_runOps (probe : Option ℚ) :
    ∀ (ops : List Op) (t : Transform), NamesInv t.shared →
      NamesInv (runOps probe ops t).shared := by
  intro ops
  induction ops with
  | nil => intro t h; exact h
  | cons op ops ih =>
    intro t h
    have happ := namesInv_applyOp probe op h
    rw [runOps]
    rcases hap : applyOp probe t op with ⟨t1, raised⟩
    rw [hap] at happ
    cases raised
    · exact ih t1 happ
    · exact happ

theorem genNodup : ∀ {l : List GenName},
    (l.filterMap inputIdx).Nodup → (l.filterMap tempIdx).Nodup →
    l.Nodup := by
  intro l
  induction l with
  | nil => intro _ _; exact List.nodup_nil
  | cons g gs ih =>
    intro h1 h2
    rcases g with i | i
    · have e1 : (GenName.input i :: gs).filterMap inputIdx =
          i :: gs.filterMap inputIdx := by simp [inputIdx]
      have e2 : (GenName.input i :: gs).filterMap tempIdx =
          gs.filterMap tempIdx := by simp [tempIdx]
      rw [e1] at h1
      rw [e2] at h2
      rcases List.nodup_cons.1 h1 with ⟨hni, h1t⟩
      refine List.nodup_cons.2 ⟨?_, ih h1t h2⟩
      intro hmem
      exact hni (List.mem_filterMap.2 ⟨_, hmem, rfl⟩)
    · have e1 : (GenName.temp i :: gs).filterMap inputIdx =
          gs.filterMap inputIdx := by simp [inputIdx]
      have e2 : (GenName.temp i :: gs).filterMap tempIdx =
          i :: gs.filterMap tempIdx := by simp [tempIdx]
      rw [e1] at h1
      rw [e2] at h2
      rcases List.nodup_cons.1 h2 with ⟨hni, h2t⟩
      refine List.nodup_cons.2 ⟨?_, ih h1 h2t⟩
      intro hmem
      exact hni (List.mem_filterMap.2 ⟨_, hmem, rfl⟩)

/-! ### Lemmas: sampling without replacement, composition loop, duration -/

theorem perm_getElem_cons_eraseIdx {α : Type} :
    ∀ (l : List α) (i : Nat) (h : i < l.length),
      l.Perm (l[i] :: l.eraseIdx i) := by
  intro l
  induction l with
  | nil => intro i h; simp at h
  | cons a as ih =>
    intro i h
    cases i with
    | zero => exact List.Perm.refl _
    | succ i =>
      have hi : i < as.length := by simpa using h
      have hget : (a :: as)[i + 1] = as[i] := by simp
      rw [hget]
      have he : (a :: as).eraseIdx (i + 1) = a :: as.eraseIdx i := rfl
      rw [he]
      exact ((ih i hi).cons a).trans (List.Perm.swap as[i] a _)

theorem sampleAux_perm {α : Type} :
    ∀ (k : Nat) (pool : List α) (g : Nat → Nat) (step : Nat),
      k = pool.length → (sampleAux k pool g step).Perm pool := by
  intro k
  induction k with
  | zero =>
    intro pool g step h
    have hp : pool = [] := List.length_eq_zero.1 h.symm
    rw [hp]
    exact List.Perm.refl _
  | succ k ih =>
    intro pool g step h
    cases pool with
    | nil => simp at h
    | cons x xs =>
      have hi : g step % (x :: xs).length < (x :: xs).length :=
        Nat.mod_lt _ (by simp)
      have hget : (x :: xs)[g step % (x :: xs).length]? =
          some ((x :: xs)[g step % (x :: xs).length]) :=
        List.getElem?_eq_getElem hi
      show (match (x :: xs)[g step % (x :: xs).length]? with
        | some y => y :: sampleAux k ((x :: xs).eraseIdx
            (g step % (x :: xs).length)) g (step + 1)
        | none => []).Perm (x :: xs)
      rw [hget]
      have hlen : k = ((x :: xs).eraseIdx (g step % (x :: xs).length)).length := by
        rw [List.length_eraseIdx_of_lt hi]
        simp only [List.length_cons] at h ⊢
        omega
      have hrec := ih _ g (step + 1) hlen
      exact (hrec.cons _).trans (perm_getElem_cons_eraseIdx _ _ hi).symm

theorem sampleWR_len_eq {α : Type} (pool : List α) (g : Nat → Nat) :
    sampleWR pool pool.length g = .ok (sampleAux pool.length pool g 0) := by
  unfold sampleWR
  rw [if_neg (by omega : ¬ pool.length > pool.length)]

theorem durationRun_fail {t : Transform} {a b : ℚ} (probe : Option ℚ)
    (h : a + b > 1) : durationRun t a b probe = (t, some .invalidWindow) := by
  unfold durationRun
  rw [if_pos (not_le.2 h)]

theorem durationRun_ok {t : Transform} {a b s e : ℚ} (probe : Option ℚ)
    (hle : a + b ≤ 1) (hnd : t.now_duration = some (s, e)) :
    durationRun t a b probe =
      ({ t with now_duration := some (s + (e - s) * a,
          s + (e - s) * a + (e - s) * b) }, none) := by
  unfold durationRun
  rw [if_neg (not_not_intro hle), hnd]

theorem durationRun_ok_probe {t : Transform} {a b d : ℚ}
    (hle : a + b ≤ 1) (hnd : t.now_duration = none) :
    durationRun t a b (some d) =
      ({ t with now_duration := some (0 + (d - 0) * a,
          0 + (d - 0) * a + (d - 0) * b) }, none) := by
  unfold durationRun
  rw [if_neg (not_not_intro hle), hnd]

theorem invokeDefault_ok (d : ℚ) (t : Transform) {m : Method}
    (hm : m ≠ .watermark) :
    ∃ t1, invokeDefault (some d) t m = .ok t1 := by
  cases m with
  | watermark => exact absurd rfl hm
  | duration =>
    have h2 : (durationRun t 0 1 (some d)).2 = none := by
      cases hnd : t.now_duration with
      | none => rw [durationRun_ok_probe (by norm_num) hnd]
      | some w =>
        rcases w with ⟨s, e⟩
        rw [durationRun_ok (some d) (by norm_num) hnd]
    rcases hdr : durationRun t 0 1 (some d) with ⟨t1, eo⟩
    rw [hdr] at h2
    simp only at h2
    subst h2
    refine ⟨t1, ?_⟩
    simp only [invokeDefault]
    rw [hdr]
  | padding => exact ⟨_, rfl⟩
  | scale => exact ⟨_, rfl⟩
  | rotate => exact ⟨_, rfl⟩
  | brightness => exact ⟨_, rfl⟩
  | mirror => exact ⟨_, rfl⟩
  | crop => exact ⟨_, rfl⟩

theorem mixedLoop_ok (d : ℚ) :
    ∀ (ms : List Method) (t : Transform), Method.watermark ∉ ms →
      (mixedLoop (some d) t ms).1 = none ∧
      (mixedLoop (some d) t ms).2.2 = ms := by
  intro ms
  induction ms with
  | nil => intro t _; exact ⟨rfl, rfl⟩
  | cons m ms ih =>
    intro t hnm
    have hm : m ≠ .watermark := fun e => hnm (e ▸ List.mem_cons_self m ms)
    have hrest : Method.watermark ∉ ms :=
      fun hmem => hnm (List.mem_cons_of_mem m hmem)
    obtain ⟨t1, ht1⟩ := invokeDefault_ok d t hm
    have hred : mixedLoop (some d) t (m :: ms) =
        ((mixedLoop (some d) t1 ms).1, (mixedLoop (some d) t1 ms).2.1,
          m :: (mixedLoop (some d) t1 ms).2.2) := by
      simp only [mixedLoop]
      rw [ht1]
    rw [hred]
    exact ⟨(ih t1 hrest).1, by rw [(ih t1 hrest).2]⟩

theorem semiFree_int (i : Int) : (Expr.int i).semiFree := noSemi_intRepr i

theorem semiFree_float (q : ℚ) : (Expr.float q).semiFree := noSemi_floatRepr q

/-! ### Claim theorems -/

/-- Claim C1: on a freshly constructed root (single input registered as
node "0"), `watermark(image, alpha=0.5, x=10, y=20, scale=1.0, angle=0)`
produces exactly the two `;`-separated statements
`[1]format=rgba,colorchannelmixer=aa=0.5[temp1]` (the child branch built by
scale, then rotate, then alpha, closed with the synthesized label `temp1`)
and `[0][temp1]overlay=10:20`. -/
theorem watermark_fresh_root_two_statements (v img : String) :
    (watermarkOp (mkTransform v) img (1/2) (.int 10) (.int 20)
      1 0).branch.filter =
    "[1]format=rgba,colorchannelmixer=aa=0.5[temp1];[0][temp1]overlay=10:20" := by
  with_unfolding_all rfl

/-- Claim C8 counterexample: `padding(top=5, right=3, bottom=4, left=2)` on
a fresh root emits `pad=iw+2+3:ih+5+4:2:5`, and the fragment
`pad=ceil((iw+x+3)/2)*2:ceil((ih+y+4)/2)*2:round(2):round(5)` the claim
promises occurs nowhere in the produced graph text. -/
theorem padding_fragment_counterexample :
    (runOps none [Op.padding (.int 5) (.int 3) (.int 4) (.int 2)]
      (mkTransform "v.mp4")).branch.filter = "[0]pad=iw+2+3:ih+5+4:2:5" ∧
    hasSubC
      "pad=ceil((iw+x+3)/2)*2:ceil((ih+y+4)/2)*2:round(2):round(5)".data
      (runOps none [Op.padding (.int 5) (.int 3) (.int 4) (.int 2)]
        (mkTransform "v.mp4")).branch.filter.data = false := by
  with_unfolding_all decide

/-- Claim C8 (amended): for every branch, `padding(top=5, right=3,
bottom=4, left=2)` chains exactly the fragment `pad=iw+2+3:ih+5+4:2:5`
(general shape `pad=iw+{left}+{right}:ih+{top}+{bottom}:{left}:{top}`) onto
the branch's graph text. -/
theorem padding_appends_plain_fragment (t : Transform) :
    applyOp none t (Op.padding (.int 5) (.int 3) (.int 4) (.int 2)) =
      (onBranch (fun b => chainF b "pad=iw+2+3:ih+5+4:2:5") t, false) := by
  with_unfolding_all rfl

/-- Claim C10: the Chooseable resolver `choice` treats only list instances
as candidate sequences — a string is returned as itself, any other
non-list non-callable value is returned unchanged, and a callable is
invoked with zero arguments and its result returned. -/
theorem choice_dispatch (g : Nat) (v : PyVal) (f : Unit → PyVal) (s : String)
    (hv1 : v.isList = false) (hv2 : v.isCallable = false) :
    pyChoice g (.str s) = .ok (.str s) ∧
    pyChoice g v = .ok v ∧
    pyChoice g (.func f) = .ok (f ()) := by
  refine ⟨rfl, ?_, rfl⟩
  cases v with
  | int i => rfl
  | float q => rfl
  | str s2 => rfl
  | list xs => simp [PyVal.isList] at hv1
  | func f2 => simp [PyVal.isCallable] at hv2

/-- Witness for C10 at concrete values. -/
theorem choice_dispatch_witness :
    pyChoice 0 (.str "a") = .ok (.str "a") ∧
    pyChoice 0 (.int 3) = .ok (.int 3) ∧
    pyChoice 0 (.func fun _ => .int 7) =
      .ok ((fun _ : Unit => PyVal.int 7) ()) :=
  choice_dispatch 0 (.int 3) (fun _ => .int 7) "a" rfl rfl

/-- Claim C5: on a root branch, `duration(start_ratio, ratio)` with
`start_ratio + ratio > 1` fails with the invalid-window error leaving the
state unchanged (the assert precedes every mutation), and with
`start_ratio + ratio ≤ 1` and a resolvable duration it succeeds. -/
theorem duration_window_check (t : Transform) (a b : ℚ) (probe : Option ℚ) :
    (a + b > 1 → durationRun t a b probe = (t, some .invalidWindow)) ∧
    (a + b ≤ 1 → (t.now_duration ≠ none ∨ probe ≠ none) →
      ∃ t1, durationRun t a b probe = (t1, none)) := by
  constructor
  · intro h
    exact durationRun_fail probe h
  · intro hle hres
    cases hnd : t.now_duration with
    | some w =>
      rcases w with ⟨s, e⟩
      exact ⟨_, durationRun_ok probe hle hnd⟩
    | none =>
      cases hp : probe with
      | some d => exact ⟨_, durationRun_ok_probe hle hnd⟩
      | none =>
        rcases hres with h | h
        · exact absurd hnd h
        · exact absurd hp h

/-- Witness for C5: an over-long window is rejected with the state intact,
a valid one (with the probe available) succeeds. -/
theorem duration_window_check_witness :
    durationRun (mkTransform "v.mp4") (3/5) (1/2) none =
      (mkTransform "v.mp4", some .invalidWindow) ∧
    ∃ t1, durationRun (mkTransform "v.mp4") (1/4) (1/2) (some 10) =
      (t1, none) :=
  ⟨(duration_window_check _ _ _ _).1 (by norm_num),
   (duration_window_check _ _ _ _).2 (by norm_num) (Or.inr (by simp))⟩

/-- Claim C7: a resolved `k` strictly greater than the number of available
operations makes `mixed` fail with the sampling error before invoking any
operation (state unchanged, no operation applied). -/
theorem mixed_oversized_k_fails (t : Transform) (methods : List Method)
    (c : Chooseable Nat) (kv gk : Nat) (gs : Nat → Nat) (probe : Option ℚ)
    (hres : resolveChoose gk c = .ok kv) (hk : kv > methods.length) :
    mixedRun t methods (some c) gk gs probe =
      (some .sampleTooLarge, t, []) := by
  have hsw : sampleWR methods kv gs =
      .error "Sample larger than population" := by
    unfold sampleWR
    rw [if_pos hk]
  simp only [mixedRun, hres, hsw]

/-- Witness for C7: `k = 9` against the eight default operations. -/
theorem mixed_oversized_k_fails_witness :
    mixedRun (mkTransform "v.mp4") defaultMethods (some (.lit 9)) 0
      (fun _ => 0) none =
      (some .sampleTooLarge, mkTransform "v.mp4", []) :=
  mixed_oversized_k_fails _ _ _ _ _ _ _ rfl (by decide)

/-- Claim C2 counterexample: a watermark whose child chains nothing
(`alpha=1, scale=1, angle=0` — the declared defaults) makes the graph text
start with the separator `;` (the merge writes `;[0][1]overlay=0:0` into an
empty root text), so the claimed invariant fails as stated. -/
theorem chain_text_counterexample :
    (runOps none [Op.watermark "w.png" 1 (.int 0) (.int 0) 1 0]
      (mkTransform "v.mp4")).branch.filter = ";[0][1]overlay=0:0" ∧
    sepStart (runOps none [Op.watermark "w.png" 1 (.int 0) (.int 0) 1 0]
      (mkTransform "v.mp4")).branch.filter = true := by
  with_unfolding_all decide

/-- Claim C2 (amended): for every sequence of chaining operations
(padding, scale, mirror, rotate, brightness, crop, alpha, watermark) whose
expression arguments are `;`-free and whose watermarks each chain at least
one child filter (scale ≠ 1, or effective rotation, or alpha ≠ 1), the
accumulated graph text never starts with a separator and never contains an
empty statement between two `;`. -/
theorem chain_text_well_formed (ops : List Op) (inp : String)
    (probe : Option ℚ) (hops : ∀ op ∈ ops, C2Op op) :
    sepStart (runOps probe ops (mkTransform inp)).branch.filter = false ∧
    hasDoubleSemi
      (runOps probe ops (mkTransform inp)).branch.filter.data = false := by
  have hb0 : GoodB (mkTransform inp).branch := by
    refine ⟨rfl, rfl, ?_, ?_⟩
    · show ("" : String).data.getLast? ≠ some ';'
      decide
    intro s hsome
    have hs : s = natRepr 0 := by
      have : some (natRepr 0) = some s := hsome
      exact (Option.some.injEq _ _ ▸ this).symm
    rw [hs]
    exact noSemi_natRepr 0
  have hrun := goodB_runOps probe ops (mkTransform inp) hb0 hops
  exact ⟨hrun.1, hrun.2.1⟩

/-- Witness for the amended C2 on a concrete mixed sequence. -/
theorem chain_text_well_formed_witness :
    sepStart (runOps none [Op.padding (.int 1) (.int 2) (.int 3) (.int 4),
      Op.watermark "w.png" (1/2) (.int 10) (.int 20) 1 0, Op.mirror]
      (mkTransform "v.mp4")).branch.filter = false ∧
    hasDoubleSemi (runOps none [Op.padding (.int 1) (.int 2) (.int 3)
      (.int 4), Op.watermark "w.png" (1/2) (.int 10) (.int 20) 1 0,
      Op.mirror] (mkTransform "v.mp4")).branch.filter.data = false := by
  refine chain_text_well_formed _ _ _ ?_
  intro op hop
  simp only [List.mem_cons, List.not_mem_nil, or_false] at hop
  rcases hop with rfl | rfl | rfl
  · exact ⟨semiFree_int _, semiFree_int _, semiFree_int _, semiFree_int _⟩
  · refine ⟨semiFree_int _, semiFree_int _, Or.inr (Or.inr ?_)⟩
    with_unfolding_all decide
  · trivial

/-- Claim C3: over any operation sequence on one root, the synthesized
temporaries are exactly `temp1, temp2, ...` in generation order (indices
strictly increasing from 1), and all generated node names — input indices
and temporaries — are pairwise distinct. -/
theorem temp_names_increasing_unique (ops : List Op) (inp : String)
    (probe : Option ℚ) :
    (runOps probe ops (mkTransform inp)).shared.gen.filterMap tempIdx =
      List.range' 1 (runOps probe ops (mkTransform inp)).shared.temp_idx ∧
    ((runOps probe ops
      (mkTransform inp)).shared.gen.map GenName.render).Nodup := by
  have hinv := namesInv_runOps probe ops (mkTransform inp)
    (namesInv_inputReg (show NamesInv { input := [], temp_idx := 0, gen := [] }
      from ⟨rfl, rfl⟩) inp)
  refine ⟨hinv.2, ?_⟩
  apply List.Nodup.map render_inj
  apply genNodup
  · rw [hinv.1]
    exact List.nodup_range _
  · rw [hinv.2]
    exact List.nodup_range' _ _

/-- Claim C4: duration narrowing is window-bounded and multiplicative: a
valid narrowing yields a window inside the previous one, and two
narrowings compose so that the final length is the original length times
both ratios. -/
theorem duration_multiplicative (t : Transform) (probe : Option ℚ)
    (s e a1 b1 a2 b2 : ℚ) (hw : t.now_duration = some (s, e)) (hse : s ≤ e)
    (ha1 : 0 ≤ a1) (hb1 : 0 ≤ b1) (h1 : a1 + b1 ≤ 1)
    (ha2 : 0 ≤ a2) (hb2 : 0 ≤ b2) (h2 : a2 + b2 ≤ 1) :
    ∃ s1 e1 s2 e2,
      durationRun t a1 b1 probe =
        ({ t with now_duration := some (s1, e1) }, none) ∧
      durationRun { t with now_duration := some (s1, e1) } a2 b2 probe =
        ({ t with now_duration := some (s2, e2) }, none) ∧
      s ≤ s1 ∧ e1 ≤ e ∧ s1 ≤ s2 ∧ e2 ≤ e1 ∧
      e1 - s1 = (e - s) * b1 ∧ e2 - s2 = (e - s) * (b1 * b2) := by
  have hL : 0 ≤ e - s := sub_nonneg.2 hse
  refine ⟨s + (e - s) * a1, s + (e - s) * a1 + (e - s) * b1, _, _,
    durationRun_ok probe h1 hw, durationRun_ok probe h2 rfl,
    ?_, ?_, ?_, ?_, by ring, by ring⟩
  · nlinarith [mul_nonneg hL ha1]
  · nlinarith [mul_nonneg hL (by linarith : (0:ℚ) ≤ 1 - a1 - b1)]
  · nlinarith [mul_nonneg (mul_nonneg hL hb1) ha2]
  · nlinarith [mul_nonneg (mul_nonneg hL hb1)
      (by linarith : (0:ℚ) ≤ 1 - a2 - b2)]

/-- Witness for C4: two successive halvings of a resolved (0, 8) window. -/
theorem duration_multiplicative_witness :
    ∃ s1 e1 s2 e2,
      durationRun { mkTransform "v.mp4" with
        now_duration := some ((0 : ℚ), 8) } (1/2) (1/2) none =
        ({ { mkTransform "v.mp4" with now_duration := some ((0 : ℚ), 8) }
          with now_duration := some (s1, e1) }, none) ∧
      durationRun { { mkTransform "v.mp4" with
          now_duration := some ((0 : ℚ), 8) } with
          now_duration := some (s1, e1) } (1/2) (1/2) none =
        ({ { mkTransform "v.mp4" with now_duration := some ((0 : ℚ), 8) }
          with now_duration := some (s2, e2) }, none) ∧
      (0 : ℚ) ≤ s1 ∧ e1 ≤ 8 ∧ s1 ≤ s2 ∧ e2 ≤ e1 ∧
      e1 - s1 = ((8 : ℚ) - 0) * (1/2) ∧
      e2 - s2 = ((8 : ℚ) - 0) * ((1/2) * (1/2)) :=
  duration_multiplicative _ none 0 8 (1/2) (1/2) (1/2) (1/2) rfl
    (by norm_num) (by norm_num) (by norm_num) (by norm_num) (by norm_num)
    (by norm_num) (by norm_num)

/-- Claim C6 counterexample: with the operation list `[watermark]`,
`k = 1` and no argument spec, the invocation of `watermark` fails (its
required `image` parameter has no default), so the sampled operation is not
applied — composition does not apply every operation once. -/
theorem mixed_full_k_counterexample :
    mixedRun (mkTransform "v.mp4") [Method.watermark] (some (.lit 1)) 0
      (fun _ => 0) none =
      (some .missingArgument, mkTransform "v.mp4", []) := by
  with_unfolding_all decide

/-- Claim C6 (amended): for every operation list whose members can all be
invoked with no arguments (i.e. excluding `watermark`, whose `image`
parameter is required; the duration probe available), composing with `k`
resolved to the number of operations and no argument spec applies every
operation exactly once — the applied sequence is exactly the sampled
permutation of the operation list, for every outcome of the sampling. -/
theorem mixed_full_k_permutation (t : Transform) (methods : List Method)
    (c : Chooseable Nat) (gk : Nat) (gs : Nat → Nat) (d : ℚ)
    (hres : resolveChoose gk c = .ok methods.length)
    (hw : Method.watermark ∉ methods) :
    (mixedRun t methods (some c) gk gs (some d)).1 = none ∧
    sampleWR methods methods.length gs =
      .ok (mixedRun t methods (some c) gk gs (some d)).2.2 ∧
    (mixedRun t methods (some c) gk gs (some d)).2.2.Perm methods := by
  have hs := sampleWR_len_eq methods gs
  have hperm := sampleAux_perm methods.length methods gs 0 rfl
  have hnm : Method.watermark ∉ sampleAux methods.length methods gs 0 :=
    fun hm => hw (hperm.mem_iff.1 hm)
  have hloop := mixedLoop_ok d (sampleAux methods.length methods gs 0) t hnm
  have hred : mixedRun t methods (some c) gk gs (some d) =
      mixedLoop (some d) t (sampleAux methods.length methods gs 0) := by
    simp only [mixedRun, hres, hs]
  rw [hred]
  refine ⟨hloop.1, ?_, ?_⟩
  · rw [hloop.2]
    exact hs
  · rw [hloop.2]
    exact hperm

/-- Witness for the amended C6 on three concrete operations. -/
theorem mixed_full_k_permutation_witness :
    (mixedRun (mkTransform "v.mp4")
      [Method.padding, Method.scale, Method.mirror] (some (.lit 3)) 0
      (fun _ => 0) (some 10)).1 = none ∧
    sampleWR [Method.padding, Method.scale, Method.mirror] 3 (fun _ => 0) =
      .ok (mixedRun (mkTransform "v.mp4")
        [Method.padding, Method.scale, Method.mirror] (some (.lit 3)) 0
        (fun _ => 0) (some 10)).2.2 ∧
    (mixedRun (mkTransform "v.mp4")
      [Method.padding, Method.scale, Method.mirror] (some (.lit 3)) 0
      (fun _ => 0) (some 10)).2.2.Perm
      [Method.padding, Method.scale, Method.mirror] :=
  mixed_full_k_permutation _ _ _ _ _ _ rfl (by decide)

/-- Claim C9 counterexample: on a branch produced by a merge (unlabeled),
`close()` synthesizes `temp2` and appends it, but a second `close()` on the
same branch synthesizes the different name `temp3` and appends another
label — it neither returns the same name nor leaves the fragment
unchanged, so close is not idempotent as claimed. -/
theorem close_not_idempotent :
    (endB mergedRoot.shared mergedRoot.branch).2.2 = "temp2" ∧
    (endB (endB mergedRoot.shared mergedRoot.branch).1
      (endB mergedRoot.shared mergedRoot.branch).2.1).2.2 = "temp3" ∧
    (endB (endB mergedRoot.shared mergedRoot.branch).1
      (endB mergedRoot.shared mergedRoot.branch).2.1).2.1.filter ≠
      (endB mergedRoot.shared mergedRoot.branch).2.1.filter := by
  with_unfolding_all decide

/-- Claim C9 (amended): close on a labeled branch returns the existing
label with state unchanged (idempotent); close on an unlabeled branch
synthesizes `temp(counter+1)` and appends it as a trailing bracketed label,
but does not store it into the branch label, so a second close synthesizes
the distinct name `temp(counter+2)` and appends a second label instead of
returning the first. -/
theorem close_labeled_idempotent_unlabeled_fresh (sh : Shared)
    (b : BranchS) :
    (strTruthy b.name = true → endB sh b = (sh, b, b.name.getD "")) ∧
    (strTruthy b.name = false →
      (endB sh b).2.2 = "temp" ++ natRepr (sh.temp_idx + 1) ∧
      (endB sh b).2.1.filter =
        b.filter ++ "[" ++ ("temp" ++ natRepr (sh.temp_idx + 1)) ++ "]" ∧
      (endB (endB sh b).1 (endB sh b).2.1).2.2 =
        "temp" ++ natRepr (sh.temp_idx + 2) ∧
      (endB (endB sh b).1 (endB sh b).2.1).2.2 ≠ (endB sh b).2.2 ∧
      (endB (endB sh b).1 (endB sh b).2.1).2.1.filter =
        (endB sh b).2.1.filter ++ "[" ++
          ("temp" ++ natRepr (sh.temp_idx + 2)) ++ "]") := by
  constructor
  · intro ht
    unfold endB
    rw [if_pos ht]
  · intro ht
    have hff : ¬ strTruthy b.name = true := by
      rw [ht]
      exact Bool.false_ne_true
    have he1 : endB sh b = ((genTemp sh).1,
        { filter := b.filter ++ "[" ++ (genTemp sh).2 ++ "]",
          name := b.name }, (genTemp sh).2) := by
      unfold endB
      rw [if_neg hff]
    have he2 : endB (genTemp sh).1
        { filter := b.filter ++ "[" ++ (genTemp sh).2 ++ "]",
          name := b.name } = ((genTemp (genTemp sh).1).1,
        { filter := (b.filter ++ "[" ++ (genTemp sh).2 ++ "]") ++ "[" ++
            (genTemp (genTemp sh).1).2 ++ "]",
          name := b.name }, (genTemp (genTemp sh).1).2) := by
      unfold endB
      rw [if_neg hff]
    rw [he1]
    refine ⟨rfl, rfl, ?_, ?_, ?_⟩
    · rw [he2]
      rfl
    · rw [he2]
      intro hcontr
      have hcontr2 : ("temp" ++ natRepr (sh.temp_idx + 1 + 1) : String) =
          "temp" ++ natRepr (sh.temp_idx + 1) := hcontr
      have hd := congrArg String.data hcontr2
      rw [String.data_append, String.data_append] at hd
      have hd2 := List.append_cancel_left hd
      have := natRepr_inj (String.ext hd2)
      omega
    · rw [he2]
      rfl

/-- Witness for the amended C9: the fresh root keeps its label `"0"`; an
unlabeled branch gets `temp1` appended. -/
theorem close_amended_witness :
    endB (mkTransform "v.mp4").shared (mkTransform "v.mp4").branch =
      ((mkTransform "v.mp4").shared, (mkTransform "v.mp4").branch,
        ((mkTransform "v.mp4").branch.name.getD "")) ∧
    (endB (mkTransform "v.mp4").shared
      { filter := "[0]hflip", name := none }).2.2 =
      "temp" ++ natRepr ((mkTransform "v.mp4").shared.temp_idx + 1) :=
  ⟨(close_labeled_idempotent_unlabeled_fresh _ _).1
      (by with_unfolding_all decide),
   ((close_labeled_idempotent_unlabeled_fresh (mkTransform "v.mp4").shared
      { filter := "[0]hflip", name := none }).2 rfl).1⟩

end VT
